import Mathlib

/-!
# Run-length codec of `rle.c`

A shallow embedding of `src/src/rle.c` and the properties its specification
states about it.

Modelling conventions.

* `uint8_t` is `Fin 256` (its arithmetic wraps modulo 256 like the C type);
  `uint64_t` values are natural numbers and every `uint64_t` operation of the
  source is reduced modulo `2 ^ 64` explicitly.
* A `FileContent` is a size field together with the bytes of the allocation
  its pointer refers to.  Reading or writing outside the allocation is
  undefined behaviour in C and is the fault `Fault.out_of_bounds` here.
* The `while` loops carry a fuel argument; the top-level functions supply
  enough of it, and the theorems prove that they return a result.
* A buffer handed to a transform is an allocation: its size field is the
  length of the allocation.  Where a theorem bounds a size (below `2 ^ 63` for
  the encoder's output, whose capacity test is signed; `+ 255` below `2 ^ 64`
  for the decoder's output, whose test adds a count), the bound is a hypothesis
  of that theorem.
* `fprintf (stderr, ...)` is recorded as a diagnostic in the result.
* `fopen` for writing can fail: `compress_on` and `decompress_on` take the
  paths that can be opened as a parameter, and `compress` and `decompress` are
  the two functions when the output path can be opened.
-/

namespace Rle

/-! ## Machine integers -/

/-- The C type `uint8_t`. -/
abbrev Byte := Fin 256

/-- The modulus of `uint64_t` arithmetic. -/
abbrev U64 : Nat := 18446744073709551616

/-- The least value above `INT64_MAX`, that is `2 ^ 63`. -/
abbrev I64 : Nat := 9223372036854775808

/-- The difference `a - b` of two `uint64_t` values, which wraps modulo `2 ^ 64`. -/
def sub_u64 (a b : Nat) : Nat := if b ≤ a then a - b else a + U64 - b

/-- Ways in which an execution leaves defined C behaviour (or the model). -/
inductive Fault where
  | out_of_bounds
  | signed_overflow
  | null_stream
  | out_of_fuel
  deriving DecidableEq, Repr

/-- The conversion `(int64_t) x` of a `uint64_t` value (two's complement). -/
def to_int64 (x : Nat) : Int :=
  if x % U64 < I64 then ((x % U64 : Nat) : Int) else ((x % U64 : Nat) : Int) - (U64 : Int)

/-- The test of line 52, `(int64_t)j < ((int64_t)(out_buffer_size)-1)`.  The
signed subtraction overflows when the converted capacity is `INT64_MIN`. -/
def has_room (j out_buffer_size : Nat) : Except Fault Bool :=
  if to_int64 out_buffer_size - 1 < -(I64 : Int) then .error .signed_overflow
  else .ok (decide (to_int64 j < to_int64 out_buffer_size - 1))

/-! ## Buffers -/

/-- The struct `FileContent`: a `uint64_t size` and the bytes `buffer` points to. -/
structure FileContent where
  size : Nat
  buffer : List Byte
  deriving DecidableEq, Repr

/-- The typedef `SizedBuffer`: the same struct, used for output buffers. -/
abbrev SizedBuffer := FileContent

/-- A buffer whose size field is the length of its allocation. -/
def FileContent.of_bytes (bytes : List Byte) : FileContent := ⟨bytes.length, bytes⟩

/-- The read `buffer[i]`. -/
def load (buffer : List Byte) (i : Nat) : Except Fault Byte :=
  match buffer[i]? with
  | some b => .ok b
  | none => .error .out_of_bounds

/-- The write `buffer[j] = v`. -/
def store (buffer : List Byte) (j : Nat) (v : Byte) : Except Fault (List Byte) :=
  if j < buffer.length then .ok (buffer.set j v) else .error .out_of_bounds

/-- What a transform hands back: the returned `j`, the output buffer after the
call, and whether the capacity diagnostic was printed (the `else` branch). -/
structure Transformed where
  written : Nat
  buffer : List Byte
  exceeded : Bool
  deriving DecidableEq, Repr

/-- The bytes a transform produced: the first `written` bytes of its buffer. -/
def Transformed.bytes (r : Transformed) : List Byte := r.buffer.take r.written

/-! ## Encoder (`rle_compress`, lines 38-63) -/

/-- The inner loop of lines 46-50; returns the final `i` and `count`. -/
def rle_compress_scan (in_buffer_size : Nat) (in_buffer : List Byte) :
    Nat → Nat → Byte → Except Fault (Nat × Byte)
  | 0, _, _ => .error .out_of_fuel
  | fuel + 1, i, count =>
    if i < sub_u64 in_buffer_size 1 ∧ count < 255 then
      match load in_buffer i with
      | .error e => .error e
      | .ok a =>
        match load in_buffer ((i + 1) % U64) with
        | .error e => .error e
        | .ok b =>
          if a = b then
            rle_compress_scan in_buffer_size in_buffer fuel ((i + 1) % U64) (count + 1)
          else .ok (i, count)
    else .ok (i, count)

/-- The outer loop of lines 44-61. -/
def rle_compress_loop (in_buffer_size : Nat) (in_buffer : List Byte) (out_buffer_size : Nat) :
    Nat → Nat → Nat → List Byte → Except Fault Transformed
  | 0, _, _, _ => .error .out_of_fuel
  | fuel + 1, i, j, out_buffer =>
    if i < in_buffer_size then
      match rle_compress_scan in_buffer_size in_buffer in_buffer_size i 1 with
      | .error e => .error e
      | .ok (i, count) =>
        match has_room j out_buffer_size with
        | .error e => .error e
        | .ok true =>
          match load in_buffer i with
          | .error e => .error e
          | .ok v =>
            match store out_buffer j v with
            | .error e => .error e
            | .ok out_buffer =>
              match store out_buffer ((j + 1) % U64) count with
              | .error e => .error e
              | .ok out_buffer =>
                rle_compress_loop in_buffer_size in_buffer out_buffer_size fuel
                  ((i + 1) % U64) ((j + 1 + 1) % U64) out_buffer
        | .ok false => .ok ⟨j, out_buffer, true⟩
    else .ok ⟨j, out_buffer, false⟩

/-- The function `rle_compress`. -/
def rle_compress (in_file_content : FileContent) (sized_out_buffer : SizedBuffer) :
    Except Fault Transformed :=
  rle_compress_loop in_file_content.size in_file_content.buffer sized_out_buffer.size
    (in_file_content.buffer.length + 1) 0 0 sized_out_buffer.buffer

/-! ## Decoder (`rle_decompress`, lines 83-105) -/

/-- The loop `while (count--) { out_buffer[j++] = byte; }` of lines 94-96. -/
def rle_decompress_fill (byte : Byte) : Nat → Nat → List Byte → Except Fault (Nat × List Byte)
  | 0, j, out_buffer => .ok (j, out_buffer)
  | count + 1, j, out_buffer =>
    match store out_buffer j byte with
    | .error e => .error e
    | .ok out_buffer => rle_decompress_fill byte count ((j + 1) % U64) out_buffer

/-- The loop of lines 89-103. -/
def rle_decompress_loop (in_buffer_size : Nat) (in_buffer : List Byte) (out_buffer_size : Nat) :
    Nat → Nat → Nat → List Byte → Except Fault Transformed
  | 0, _, _, _ => .error .out_of_fuel
  | fuel + 1, i, j, out_buffer =>
    if i < sub_u64 in_buffer_size 1 then
      match load in_buffer i with
      | .error e => .error e
      | .ok byte =>
        match load in_buffer ((i + 1) % U64) with
        | .error e => .error e
        | .ok count =>
          if (j + count.val) % U64 ≤ out_buffer_size then
            match rle_decompress_fill byte count.val j out_buffer with
            | .error e => .error e
            | .ok (j, out_buffer) =>
              rle_decompress_loop in_buffer_size in_buffer out_buffer_size fuel
                ((i + 2) % U64) j out_buffer
          else .ok ⟨j, out_buffer, true⟩
    else .ok ⟨j, out_buffer, false⟩

/-- The function `rle_decompress`. -/
def rle_decompress (in_file_content : FileContent) (sized_out_buffer : SizedBuffer) :
    Except Fault Transformed :=
  rle_decompress_loop in_file_content.size in_file_content.buffer sized_out_buffer.size
    (in_file_content.buffer.length + 1) 0 0 sized_out_buffer.buffer

/-! ## List-level description of the two transforms -/

/-- The pairs the encoder emits from a run in progress: `a` is the byte under
the scan position, `count` the value of the counter, `rest` the input after it. -/
def enc_run : List Byte → Byte → Byte → List (Byte × Byte)
  | [], a, count => [(a, count)]
  | b :: rest, a, count =>
    if a = b ∧ count < 255 then enc_run rest b (count + 1)
    else (a, count) :: enc_run rest b 1

/-- The pairs the encoder emits for an input, capacity permitting. -/
def enc_pairs : List Byte → List (Byte × Byte)
  | [] => []
  | a :: rest => enc_run rest a 1

/-- The bytes of a sequence of pairs, value first. -/
def flat (ps : List (Byte × Byte)) : List Byte := ps.flatMap (fun p => [p.1, p.2])

/-- The expansion of a sequence of pairs: `count` copies of each `value`. -/
def expand (ps : List (Byte × Byte)) : List Byte :=
  ps.flatMap (fun p => List.replicate p.2.val p.1)

/-- The complete pairs of a payload; a dangling last byte is dropped. -/
def to_pairs : List Byte → List (Byte × Byte)
  | a :: b :: rest => (a, b) :: to_pairs rest
  | _ => []

/-- The sum of the counts of a sequence of pairs. -/
def total (ps : List (Byte × Byte)) : Nat := (ps.map (fun p => p.2.val)).sum

/-- The number of leading pairs whose expansion fits in `room` bytes. -/
def fitting : Nat → List (Byte × Byte) → Nat
  | _, [] => 0
  | room, p :: ps => if p.2.val ≤ room then fitting (room - p.2.val) ps + 1 else 0

/-! ## Files and the two orchestration functions -/

/-- The messages the program prints on `stderr`. -/
inductive Diagnostic where
  | could_not_read
  | compress_capacity
  | decompress_capacity
  | incorrect_format
  | size_mismatch
  deriving DecidableEq, Repr

/-- A file path. -/
abbrev Path := String

/-- The files that exist, with their contents. -/
abbrev Files := Path → Option (List Byte)

/-- The effect of `fopen (path, "wb")`, the `fwrite` calls and `fclose`. -/
def write_file (files : Files) (path : Path) (content : List Byte) : Files :=
  fun q => if q = path then some content else files q

/-- The function `read_entire_file` (lines 21-36): the content of the file, or
size 0 and a diagnostic when it cannot be opened.  A content that was read is
held in memory: the allocation of line 26 succeeded, so its size fits the
`long` that `ftell` returns, and the theorems that need a bound on it take the
bound as a hypothesis. -/
def read_entire_file (files : Files) (file_path : Path) : FileContent × List Diagnostic :=
  match files file_path with
  | some content => (⟨content.length, content⟩, [])
  | none => (⟨0, []⟩, [.could_not_read])

/-- The byte order of the machine, which fixes the layout of the header. -/
inductive ByteOrder where
  | little
  | big
  deriving DecidableEq, Repr

/-- The eight bytes of a `uint64_t` in memory, as `fwrite (&size, 8, 1, f)` writes them. -/
def u64_bytes (order : ByteOrder) (n : Nat) : List Byte :=
  let le : List Byte :=
    (List.range 8).map (fun k => ⟨n / 256 ^ k % 256, Nat.mod_lt _ (by decide)⟩)
  match order with
  | .little => le
  | .big => le.reverse

/-- The value `*(uint64_t *) buffer` of the first eight bytes of a buffer. -/
def u64_value (order : ByteOrder) (buffer : List Byte) : Nat :=
  let bytes := buffer.take 8
  let le := match order with
    | .little => bytes
    | .big => bytes.reverse
  le.foldr (fun b acc => b.val + 256 * acc) 0

/-- The files after a run and what the run printed. -/
structure Outcome where
  files : Files
  diagnostics : List Diagnostic

/-- The diagnostic a transform printed, if any. -/
def capacity_diagnostic (r : Transformed) (d : Diagnostic) : List Diagnostic :=
  if r.exceeded then [d] else []

/-- The function `compress` (lines 65-81) when the output path can be opened
for writing; `compress_on` is the function with that as a parameter, and the
two agree then (`compress_on_writable`).  `malloc n` is the content of the
memory that `malloc (n)` returns; its length is `n` when the allocation
succeeds.  `fwrite` reads `written` bytes of the buffer, which must lie inside
the allocation. -/
def compress (order : ByteOrder) (malloc : Nat → List Byte) (files : Files)
    (in_file_path out_file_path : Path) : Except Fault Outcome :=
  let (in_file_content, printed) := read_entire_file files in_file_path
  if in_file_content.size = 0 then .ok ⟨files, printed⟩
  else
    let size := (8 + 2 * in_file_content.size) % U64
    let sized_out_buffer : SizedBuffer := ⟨size, malloc size⟩
    match rle_compress in_file_content sized_out_buffer with
    | .error e => .error e
    | .ok r =>
      if r.written ≤ r.buffer.length then
        .ok ⟨write_file files out_file_path
            (u64_bytes order in_file_content.size ++ r.buffer.take r.written),
          printed ++ capacity_diagnostic r .compress_capacity⟩
      else .error .out_of_bounds

/-- The function `decompress` (lines 107-131) when the output path can be opened
for writing; `decompress_on` is the function with that as a parameter, and the
two agree then (`decompress_on_writable`).  On the path that reaches
`size -= 8` the size is at least 8, so the subtraction does not wrap. -/
def decompress (order : ByteOrder) (malloc : Nat → List Byte) (files : Files)
    (in_file_path out_file_path : Path) : Except Fault Outcome :=
  let (in_file_content, printed) := read_entire_file files in_file_path
  if in_file_content.size < 8 then
    .ok ⟨files, printed ++ (if in_file_content.size > 0 then [.incorrect_format] else [])⟩
  else
    let size := u64_value order in_file_content.buffer
    let sized_out_buffer : SizedBuffer := ⟨size, malloc size⟩
    let in_file_content : FileContent :=
      ⟨in_file_content.size - 8, in_file_content.buffer.drop 8⟩
    match rle_decompress in_file_content sized_out_buffer with
    | .error e => .error e
    | .ok r =>
      if r.written ≤ r.buffer.length then
        .ok ⟨write_file files out_file_path (r.buffer.take r.written),
          printed ++ capacity_diagnostic r .decompress_capacity
            ++ (if size ≠ r.written then [.size_mismatch] else [])⟩
      else .error .out_of_bounds

/-- Running `compress in mid` and then `decompress mid out`. -/
def compress_then_decompress (order : ByteOrder) (malloc : Nat → List Byte) (files : Files)
    (in_file_path mid_file_path out_file_path : Path) : Except Fault Outcome :=
  match compress order malloc files in_file_path mid_file_path with
  | .error e => .error e
  | .ok o =>
    match decompress order malloc o.files mid_file_path out_file_path with
    | .error e => .error e
    | .ok o' => .ok ⟨o'.files, o.diagnostics ++ o'.diagnostics⟩

/-- An allocator that hands out zeroed memory, for evaluating examples. -/
def zeroed (n : Nat) : List Byte := List.replicate n 0

/-- The function `compress` (lines 65-81), the paths that can be opened for
writing being a parameter: `writable` tells which paths `fopen (path, "wb")`
can open.  For the others it returns the null pointer, which line 78 hands to
`fwrite` unchecked: the fault `Fault.null_stream`. -/
def compress_on (writable : Path → Bool) (order : ByteOrder) (malloc : Nat → List Byte)
    (files : Files) (in_file_path out_file_path : Path) : Except Fault Outcome :=
  let (in_file_content, printed) := read_entire_file files in_file_path
  if in_file_content.size = 0 then .ok ⟨files, printed⟩
  else
    let size := (8 + 2 * in_file_content.size) % U64
    let sized_out_buffer : SizedBuffer := ⟨size, malloc size⟩
    match rle_compress in_file_content sized_out_buffer with
    | .error e => .error e
    | .ok r =>
      if writable out_file_path then
        if r.written ≤ r.buffer.length then
          .ok ⟨write_file files out_file_path
              (u64_bytes order in_file_content.size ++ r.buffer.take r.written),
            printed ++ capacity_diagnostic r .compress_capacity⟩
        else .error .out_of_bounds
      else .error .null_stream

/-- Lines 123-130 of `decompress`: what it does with the value the decoder
returned, `size` being the declared size read from the header.  The stream
that `fopen` returns (line 128) is handed to `fwrite` unchecked. -/
def decompress_finish (writable : Path → Bool) (files : Files) (out_file_path : Path)
    (printed : List Diagnostic) (size : Nat) (r : Transformed) : Except Fault Outcome :=
  if writable out_file_path then
    if r.written ≤ r.buffer.length then
      .ok ⟨write_file files out_file_path (r.buffer.take r.written),
        printed ++ capacity_diagnostic r .decompress_capacity
          ++ (if size ≠ r.written then [.size_mismatch] else [])⟩
    else .error .out_of_bounds
  else .error .null_stream

/-- The function `decompress` (lines 107-131), the paths that can be opened for
writing being a parameter. -/
def decompress_on (writable : Path → Bool) (order : ByteOrder) (malloc : Nat → List Byte)
    (files : Files) (in_file_path out_file_path : Path) : Except Fault Outcome :=
  let (in_file_content, printed) := read_entire_file files in_file_path
  if in_file_content.size < 8 then
    .ok ⟨files, printed ++ (if in_file_content.size > 0 then [.incorrect_format] else [])⟩
  else
    let size := u64_value order in_file_content.buffer
    let sized_out_buffer : SizedBuffer := ⟨size, malloc size⟩
    let in_file_content : FileContent :=
      ⟨in_file_content.size - 8, in_file_content.buffer.drop 8⟩
    match rle_decompress in_file_content sized_out_buffer with
    | .error e => .error e
    | .ok r => decompress_finish writable files out_file_path printed size r

/-- Running `compress in mid` and then `decompress mid out`, the paths that can
be opened for writing being a parameter. -/
def compress_then_decompress_on (writable : Path → Bool) (order : ByteOrder)
    (malloc : Nat → List Byte) (files : Files)
    (in_file_path mid_file_path out_file_path : Path) : Except Fault Outcome :=
  match compress_on writable order malloc files in_file_path mid_file_path with
  | .error e => .error e
  | .ok o =>
    match decompress_on writable order malloc o.files mid_file_path out_file_path with
    | .error e => .error e
    | .ok o' => .ok ⟨o'.files, o.diagnostics ++ o'.diagnostics⟩

/-- The pairs for a run of `t` equal bytes: full pairs of 255 and a remainder. -/
def run_chunks (b : Byte) (t : Nat) : List (Byte × Byte) :=
  List.replicate (t / 255) (b, 255) ++
    (if t % 255 = 0 then [] else [(b, ⟨t % 255 % 256, Nat.mod_lt _ (by decide)⟩)])

/-! ## Basic facts -/

theorem load_eq_ok {buffer : List Byte} {i : Nat} {b : Byte} (h : buffer[i]? = some b) :
    load buffer i = .ok b := by
  simp [load, h]

theorem load_eq_error {buffer : List Byte} {i : Nat} (h : buffer.length ≤ i) :
    load buffer i = .error .out_of_bounds := by
  simp [load, List.getElem?_eq_none h]

theorem drop_eq_cons {S : List Byte} {i : Nat} {a : Byte} (h : S[i]? = some a) :
    S.drop i = a :: S.drop (i + 1) := by
  have hi : i < S.length := by
    by_contra hc
    rw [List.getElem?_eq_none (by omega)] at h
    cases h
  rw [List.getElem?_eq_getElem hi] at h
  cases h
  exact List.drop_eq_getElem_cons hi

theorem mod_u64 {x : Nat} (h : x < U64) : x % U64 = x := Nat.mod_eq_of_lt h

theorem pred_u64 {n : Nat} (h0 : 0 < n) : sub_u64 n 1 = n - 1 := by
  unfold sub_u64
  exact if_pos h0

theorem scan_spec (S : List Byte) (hn : S.length < U64) :
    ∀ (fuel i : Nat) (count a : Byte), S[i]? = some a → S.length - i ≤ fuel →
      ∃ i' count' a', rle_compress_scan S.length S fuel i count = .ok (i', count') ∧
        i ≤ i' ∧ S[i']? = some a' ∧ count.val ≤ count'.val ∧
        enc_run (S.drop (i + 1)) a count = (a', count') :: enc_pairs (S.drop (i' + 1)) := by
  intro fuel
  induction fuel with
  | zero =>
    intro i count a ha h
    have hi : i < S.length := by
      by_contra hc
      rw [List.getElem?_eq_none (by omega)] at ha
      cases ha
    omega
  | succ fuel ih =>
    intro i count a ha hfuel
    have hi : i < S.length := by
      by_contra hc
      rw [List.getElem?_eq_none (by omega)] at ha
      cases ha
    have hsub : sub_u64 S.length 1 = S.length - 1 := pred_u64 (by omega)
    rw [rle_compress_scan, hsub]
    by_cases hc : i < S.length - 1 ∧ count < 255
    · rw [if_pos hc, load_eq_ok ha]
      have hi1 : i + 1 < S.length := by omega
      have hmod : (i + 1) % U64 = i + 1 := mod_u64 (by omega)
      have hb : S[i + 1]? = some (S[i + 1]) := List.getElem?_eq_getElem hi1
      rw [hmod, load_eq_ok hb]
      simp only
      rw [drop_eq_cons hb, enc_run]
      by_cases hab : a = S[i + 1]
      · rw [if_pos hab, if_pos ⟨hab, hc.2⟩]
        have hlt : count.val < 255 := hc.2
        have hv : (count + 1).val = count.val + 1 := by
          have := Fin.val_add count 1
          simp at this
          omega
        obtain ⟨i', count', a', h1, h2, h3, h4, h5⟩ :=
          ih (i + 1) (count + 1) (S[i + 1]) hb (by omega)
        exact ⟨i', count', a', h1, by omega, h3, by omega, h5⟩
      · rw [if_neg hab, if_neg (fun h => hab h.1)]
        refine ⟨i, count, a, rfl, le_refl _, ha, le_refl _, ?_⟩
        rw [show S.drop (i + 1) = S[i + 1] :: S.drop (i + 1 + 1) from drop_eq_cons hb, enc_pairs]
    · rw [if_neg hc]
      refine ⟨i, count, a, rfl, le_refl _, ha, le_refl _, ?_⟩
      by_cases hlast : i < S.length - 1
      · have hi1 : i + 1 < S.length := by omega
        have hb : S[i + 1]? = some (S[i + 1]) := List.getElem?_eq_getElem hi1
        rw [drop_eq_cons hb, enc_run, enc_pairs, if_neg (fun h => hc ⟨hlast, h.2⟩)]
      · have : S.drop (i + 1) = [] := List.drop_eq_nil_of_le (by omega)
        rw [this, enc_run, enc_pairs]

theorem has_room_spec {j cap : Nat} (hc : cap < I64) (hj : j ≤ cap) :
    has_room j cap = .ok (decide (j + 2 ≤ cap)) := by
  have h1 : cap % U64 = cap := mod_u64 (by unfold U64 I64 at *; omega)
  have h2 : j % U64 = j := mod_u64 (by unfold U64 I64 at *; omega)
  have h3 : to_int64 cap = (cap : Int) := by
    unfold to_int64
    rw [h1, if_pos hc]
  have h4 : to_int64 j = (j : Int) := by
    unfold to_int64
    rw [h2, if_pos (by omega)]
  unfold has_room
  rw [h3, h4, if_neg (by unfold I64; omega)]
  congr 1
  rw [decide_eq_decide]
  omega

theorem store_append (A R : List Byte) (x v : Byte) :
    store (A ++ x :: R) A.length v = .ok (A ++ v :: R) := by
  unfold store
  rw [if_pos (by simp)]
  simp

@[simp] theorem flat_nil : flat [] = [] := rfl

@[simp] theorem flat_cons (p : Byte × Byte) (ps : List (Byte × Byte)) :
    flat (p :: ps) = p.1 :: p.2 :: flat ps := by
  simp [flat]

theorem flat_append (ps qs : List (Byte × Byte)) : flat (ps ++ qs) = flat ps ++ flat qs := by
  simp [flat]

@[simp] theorem flat_length (ps : List (Byte × Byte)) : (flat ps).length = 2 * ps.length := by
  induction ps with
  | nil => rfl
  | cons p ps ih => simp [ih]; omega

theorem enc_pairs_drop {S : List Byte} {i : Nat} {a : Byte} (h : S[i]? = some a) :
    enc_pairs (S.drop i) = enc_run (S.drop (i + 1)) a 1 := by
  rw [drop_eq_cons h, enc_pairs]

theorem loop_spec (S : List Byte) (hn : S.length < U64) (cap : Nat) (hcap : cap < I64) :
    ∀ (fuel i : Nat) (A R : List Byte), i ≤ S.length → S.length - i < fuel →
      (A ++ R).length = cap →
      rle_compress_loop S.length S cap fuel i A.length (A ++ R) =
        .ok ⟨A.length + 2 * min (enc_pairs (S.drop i)).length (R.length / 2),
          A ++ flat ((enc_pairs (S.drop i)).take (min (enc_pairs (S.drop i)).length (R.length / 2)))
            ++ R.drop (2 * min (enc_pairs (S.drop i)).length (R.length / 2)),
          decide (min (enc_pairs (S.drop i)).length (R.length / 2)
            < (enc_pairs (S.drop i)).length)⟩ := by
  intro fuel
  induction fuel with
  | zero => intro i A R _ h; omega
  | succ fuel ih =>
    intro i A R hi hfuel hlen
    rw [rle_compress_loop]
    by_cases hlt : i < S.length
    · rw [if_pos hlt]
      have ha : S[i]? = some (S[i]) := List.getElem?_eq_getElem hlt
      obtain ⟨i', count', a', h1, h2, h3, _, h5⟩ := scan_spec S hn S.length i 1 (S[i]) ha (by omega)
      have hi' : i' < S.length := by
        by_contra hc
        rw [List.getElem?_eq_none (by omega)] at h3
        cases h3
      rw [h1]
      simp only
      have hAR : A.length + R.length = cap := by rw [← hlen]; simp
      rw [has_room_spec hcap (by omega), enc_pairs_drop ha, h5]
      by_cases hroom : A.length + 2 ≤ cap
      · rw [decide_eq_true hroom]
        simp only
        rw [load_eq_ok h3]
        simp only
        match R, hAR with
        | [], hAR => simp at hAR; omega
        | [_], hAR => simp at hAR; omega
        | x :: y :: R', hAR =>
          rw [store_append]
          simp only
          have hj1 : (A.length + 1) % U64 = (A ++ [a']).length := by
            rw [mod_u64 (by unfold U64 I64 at *; omega)]; simp
          have e1 : A ++ a' :: y :: R' = (A ++ [a']) ++ y :: R' := by simp
          rw [hj1, e1, store_append]
          simp only
          have hj2 : (A.length + 1 + 1) % U64 = (A ++ [a', count']).length := by
            rw [mod_u64 (by unfold U64 I64 at *; omega)]; simp
          have hi2 : (i' + 1) % U64 = i' + 1 := mod_u64 (by omega)
          have e2 : (A ++ [a']) ++ count' :: R' = (A ++ [a', count']) ++ R' := by simp
          rw [hj2, hi2, e2, ih (i' + 1) (A ++ [a', count']) R' (by omega) (by omega)
            (by rw [← hlen]; simp)]
          have hk : min ((a', count') :: enc_pairs (S.drop (i' + 1))).length
              ((x :: y :: R').length / 2)
              = min (enc_pairs (S.drop (i' + 1))).length (R'.length / 2) + 1 := by
            simp only [List.length_cons]
            omega
          rw [hk]
          simp only [List.take_succ_cons, flat_cons, List.length_append, List.length_cons,
            List.length_nil, List.append_assoc, List.cons_append, List.nil_append,
            Nat.mul_add, List.drop_succ_cons, Nat.add_lt_add_iff_right]
          refine congrArg Except.ok ?_
          congr 1
          omega
      · rw [decide_eq_false hroom]
        simp only
        have hk : min ((a', count') :: enc_pairs (S.drop (i' + 1))).length (R.length / 2) = 0 := by
          simp only [List.length_cons]
          omega
        rw [hk]
        simp
    · rw [if_neg hlt]
      have : S.drop i = [] := List.drop_eq_nil_of_le (by omega)
      rw [this]
      simp [enc_pairs]

/-- The encoder on a well-formed input and a well-formed output buffer whose
capacity is representable as a non-negative `int64_t`: it emits the first `k`
pairs of `enc_pairs S`, where `k` is as many as fit. -/
theorem rle_compress_spec (S : List Byte) (out : SizedBuffer) (hn : S.length < U64)
    (hwf : out.size = out.buffer.length) (hcap : out.size < I64) :
    rle_compress (.of_bytes S) out =
      .ok ⟨2 * min (enc_pairs S).length (out.size / 2),
        flat ((enc_pairs S).take (min (enc_pairs S).length (out.size / 2)))
          ++ out.buffer.drop (2 * min (enc_pairs S).length (out.size / 2)),
        decide (min (enc_pairs S).length (out.size / 2) < (enc_pairs S).length)⟩ := by
  have h := loop_spec S hn out.size hcap (S.length + 1) 0 [] out.buffer (by omega) (by omega)
    (by simp [hwf])
  simp only [List.length_nil, List.nil_append, List.drop_zero, Nat.zero_add, ← hwf] at h
  exact h

@[simp] theorem expand_nil : expand [] = [] := rfl

@[simp] theorem expand_cons (p : Byte × Byte) (ps : List (Byte × Byte)) :
    expand (p :: ps) = List.replicate p.2.val p.1 ++ expand ps := by
  simp [expand]

theorem expand_append (ps qs : List (Byte × Byte)) :
    expand (ps ++ qs) = expand ps ++ expand qs := by
  simp [expand]

@[simp] theorem total_nil : total [] = 0 := rfl

@[simp] theorem total_cons (p : Byte × Byte) (ps : List (Byte × Byte)) :
    total (p :: ps) = p.2.val + total ps := by
  simp [total]

theorem total_append (ps qs : List (Byte × Byte)) : total (ps ++ qs) = total ps + total qs := by
  simp [total]

@[simp] theorem expand_length (ps : List (Byte × Byte)) : (expand ps).length = total ps := by
  induction ps with
  | nil => rfl
  | cons p ps ih => simp [ih]

theorem fill_spec (b : Byte) :
    ∀ (count : Nat) (A R : List Byte), count ≤ R.length → (A ++ R).length < U64 →
      rle_decompress_fill b count A.length (A ++ R) =
        .ok (A.length + count, A ++ List.replicate count b ++ R.drop count) := by
  intro count
  induction count with
  | zero => intro A R _ _; simp [rle_decompress_fill]
  | succ count ih =>
    intro A R hR hlen
    match R, hR with
    | [], hR => simp at hR
    | x :: R', hR =>
      rw [rle_decompress_fill, store_append]
      simp only
      have hj : (A.length + 1) % U64 = (A ++ [b]).length := by
        rw [mod_u64 (by simp at hlen; omega)]; simp
      have e : A ++ b :: R' = (A ++ [b]) ++ R' := by simp
      rw [hj, e, ih (A ++ [b]) R' (by simpa using hR) (by simpa using hlen)]
      simp only [List.length_append, List.length_cons, List.length_nil, List.append_assoc,
        List.cons_append, List.nil_append, List.drop_succ_cons, List.replicate_succ]
      refine congrArg Except.ok ?_
      congr 1
      omega

theorem to_pairs_drop {p : List Byte} {i : Nat} {a b : Byte} (ha : p[i]? = some a)
    (hb : p[i + 1]? = some b) :
    to_pairs (p.drop i) = (a, b) :: to_pairs (p.drop (i + 2)) := by
  rw [drop_eq_cons ha, drop_eq_cons hb, to_pairs]

theorem to_pairs_drop_nil {p : List Byte} {i : Nat} (h : p.length ≤ i + 1) :
    to_pairs (p.drop i) = [] := by
  match hd : p.drop i with
  | [] => rfl
  | [_] => rfl
  | x :: y :: rest =>
    have := congrArg List.length hd
    simp at this
    omega

theorem decode_loop_spec (p : List Byte) (h0 : 0 < p.length) (hm : p.length < U64) (cap : Nat)
    (hcap : cap < U64) :
    ∀ (fuel i : Nat) (A R : List Byte), p.length - i < fuel → (A ++ R).length = cap →
      (cap + 255 < U64 ∨ A.length + total (to_pairs (p.drop i)) ≤ cap) →
      rle_decompress_loop p.length p cap fuel i A.length (A ++ R) =
        .ok ⟨A.length + total ((to_pairs (p.drop i)).take (fitting R.length (to_pairs (p.drop i)))),
          A ++ expand ((to_pairs (p.drop i)).take (fitting R.length (to_pairs (p.drop i))))
            ++ R.drop (total ((to_pairs (p.drop i)).take (fitting R.length (to_pairs (p.drop i))))),
          decide (fitting R.length (to_pairs (p.drop i)) < (to_pairs (p.drop i)).length)⟩ := by
  intro fuel
  induction fuel with
  | zero => intro i A R h; omega
  | succ fuel ih =>
    intro i A R hfuel hlen hH
    have hAR : A.length + R.length = cap := by rw [← hlen]; simp
    rw [rle_decompress_loop, pred_u64 h0]
    by_cases hlt : i < p.length - 1
    · rw [if_pos hlt]
      obtain ⟨a, ha⟩ : ∃ a, p[i]? = some a := ⟨_, List.getElem?_eq_getElem (by omega)⟩
      obtain ⟨b, hb⟩ : ∃ b, p[i + 1]? = some b := ⟨_, List.getElem?_eq_getElem (by omega)⟩
      rw [to_pairs_drop ha hb] at hH
      rw [load_eq_ok ha, mod_u64 (show i + 1 < U64 by omega), load_eq_ok hb,
        to_pairs_drop ha hb]
      simp only
      simp only [total_cons] at hH
      have hnw : A.length + b.val < U64 := by
        have := b.isLt
        omega
      rw [mod_u64 hnw, fitting]
      by_cases hfit : A.length + b.val ≤ cap
      · rw [if_pos hfit, if_pos (show b.val ≤ R.length by omega)]
        have hfill : rle_decompress_fill a b.val A.length (A ++ R)
            = .ok ((A ++ List.replicate b.val a).length,
                (A ++ List.replicate b.val a) ++ R.drop b.val) := by
          have hR : b.val ≤ R.length := by omega
          have hU : (A ++ R).length < U64 := by omega
          rw [fill_spec a b.val A R hR hU]
          simp
        rw [hfill]
        simp only
        rw [mod_u64 (show i + 2 < U64 by omega),
          ih (i + 2) (A ++ List.replicate b.val a) (R.drop b.val)
            (by omega) (by simp; omega) (by simp; omega)]
        simp only [List.length_append, List.length_replicate, List.length_drop,
          List.take_succ_cons, total_cons, expand_cons, List.append_assoc, List.drop_drop,
          Nat.add_lt_add_iff_right, List.length_cons]
        refine congrArg Except.ok ?_
        congr 1
        omega
      · rw [if_neg hfit, if_neg (show ¬ b.val ≤ R.length by omega)]
        simp
    · rw [if_neg hlt, to_pairs_drop_nil (by omega)]
      simp [fitting]

/-- The decoder on a well-formed non-empty payload and a well-formed output
buffer: it expands the first `k` complete pairs, where `k` is as many as fit.
The side condition excludes a wrap of `j + count` modulo `2 ^ 64`. -/
theorem rle_decompress_spec (p : List Byte) (out : SizedBuffer) (h0 : 0 < p.length)
    (hm : p.length < U64) (hwf : out.size = out.buffer.length) (hcap : out.size < U64)
    (hH : out.size + 255 < U64 ∨ total (to_pairs p) ≤ out.size) :
    rle_decompress (.of_bytes p) out =
      .ok ⟨total ((to_pairs p).take (fitting out.size (to_pairs p))),
        expand ((to_pairs p).take (fitting out.size (to_pairs p)))
          ++ out.buffer.drop (total ((to_pairs p).take (fitting out.size (to_pairs p)))),
        decide (fitting out.size (to_pairs p) < (to_pairs p).length)⟩ := by
  have h := decode_loop_spec p h0 hm out.size hcap (p.length + 1) 0 [] out.buffer (by omega)
    (by simp [hwf]) (by simpa using hH)
  simp only [List.length_nil, List.nil_append, List.drop_zero, Nat.zero_add, ← hwf] at h
  exact h

theorem val_succ {count : Byte} (h : count < 255) : (count + 1).val = count.val + 1 := by
  have h1 : count.val < 255 := h
  have h2 := Fin.val_add count 1
  simp at h2
  omega

theorem expand_enc_run (rest : List Byte) :
    ∀ (a count : Byte), expand (enc_run rest a count) = List.replicate count.val a ++ rest := by
  induction rest with
  | nil => intro a count; simp [enc_run]
  | cons b rest ih =>
    intro a count
    rw [enc_run]
    by_cases h : a = b ∧ count < 255
    · rw [if_pos h, ih, val_succ h.2, h.1, List.replicate_succ']
      simp
    · rw [if_neg h, expand_cons, ih]
      simp

/-- Expanding the encoder's pairs gives the input back. -/
theorem expand_enc_pairs (S : List Byte) : expand (enc_pairs S) = S := by
  cases S with
  | nil => rfl
  | cons a rest => rw [enc_pairs, expand_enc_run]; simp

theorem total_enc_pairs (S : List Byte) : total (enc_pairs S) = S.length := by
  rw [← expand_length, expand_enc_pairs]

theorem enc_run_length (rest : List Byte) :
    ∀ (a count : Byte), (enc_run rest a count).length ≤ rest.length + 1 := by
  induction rest with
  | nil => intro a count; simp [enc_run]
  | cons b rest ih =>
    intro a count
    rw [enc_run]
    split
    · have := ih b (count + 1); simp; omega
    · have := ih b 1; simp; omega

/-- The encoder emits at most one pair per input byte. -/
theorem enc_pairs_length (S : List Byte) : (enc_pairs S).length ≤ S.length := by
  cases S with
  | nil => simp [enc_pairs]
  | cons a rest => rw [enc_pairs]; exact enc_run_length rest a 1

theorem enc_run_ne_nil (rest : List Byte) (a count : Byte) : enc_run rest a count ≠ [] := by
  induction rest generalizing a count with
  | nil => simp [enc_run]
  | cons b rest ih =>
    rw [enc_run]
    split
    · exact ih b (count + 1)
    · simp

theorem enc_pairs_pos {S : List Byte} (h : S ≠ []) : 0 < (enc_pairs S).length := by
  cases S with
  | nil => exact absurd rfl h
  | cons a rest =>
    rw [enc_pairs]
    exact List.length_pos.mpr (enc_run_ne_nil rest a 1)

theorem to_pairs_flat (ps : List (Byte × Byte)) : to_pairs (flat ps) = ps := by
  induction ps with
  | nil => rfl
  | cons p ps ih => rw [flat_cons, to_pairs, ih]

theorem flat_take (ps : List (Byte × Byte)) :
    ∀ k : Nat, flat (ps.take k) = (flat ps).take (2 * k) := by
  induction ps with
  | nil => intro k; simp
  | cons p ps ih =>
    intro k
    cases k with
    | zero => simp
    | succ k => simp [ih, Nat.mul_add]

theorem fitting_all : ∀ (ps : List (Byte × Byte)) (room : Nat), total ps ≤ room →
    fitting room ps = ps.length := by
  intro ps
  induction ps with
  | nil => intro room _; rfl
  | cons p ps ih =>
    intro room h
    rw [total_cons] at h
    rw [fitting, if_pos (by omega), ih _ (by omega), List.length_cons]

theorem fitting_le (ps : List (Byte × Byte)) : ∀ room : Nat, fitting room ps ≤ ps.length := by
  induction ps with
  | nil => intro room; simp [fitting]
  | cons p ps ih =>
    intro room
    rw [fitting]
    split
    · have := ih (room - p.2.val); simp; omega
    · simp

theorem total_take_fitting (ps : List (Byte × Byte)) :
    ∀ room : Nat, total (ps.take (fitting room ps)) ≤ room := by
  induction ps with
  | nil => intro room; simp [fitting]
  | cons p ps ih =>
    intro room
    rw [fitting]
    split
    · have := ih (room - p.2.val)
      simp only [List.take_succ_cons, total_cons]
      omega
    · simp

theorem fitting_lt {ps : List (Byte × Byte)} : ∀ {room : Nat}, room < total ps →
    fitting room ps < ps.length := by
  induction ps with
  | nil => intro room h; simp at h
  | cons p ps ih =>
    intro room h
    rw [total_cons] at h
    rw [fitting]
    split
    · have := @ih (room - p.2.val) (by omega); simp; omega
    · simp

/-- The round trip of the two transforms on a non-empty input. -/
theorem roundtrip_nonempty (S : List Byte) (out mid : SizedBuffer) (hS : S ≠ [])
    (hwf : out.size = out.buffer.length) (hcap : out.size < I64) (hroom : 2 * S.length ≤ out.size)
    (hmid : mid.size = mid.buffer.length) (hms : mid.size = S.length) :
    ∃ r, rle_compress (.of_bytes S) out = .ok r ∧ r.exceeded = false ∧
      r.written ≤ 2 * S.length ∧ r.written ≤ r.buffer.length ∧
      r.bytes = flat (enc_pairs S) ∧
      rle_decompress (.of_bytes r.bytes) mid = .ok ⟨S.length, S, false⟩ := by
  have hn : S.length < U64 := by unfold U64 I64 at *; omega
  have hlen := enc_pairs_length S
  have hk : min (enc_pairs S).length (out.size / 2) = (enc_pairs S).length := by omega
  refine ⟨_, rle_compress_spec S out hn hwf hcap, ?_⟩
  rw [hk]
  have hbytes : (⟨2 * (enc_pairs S).length,
      flat ((enc_pairs S).take (enc_pairs S).length) ++ out.buffer.drop (2 * (enc_pairs S).length),
      decide ((enc_pairs S).length < (enc_pairs S).length)⟩ : Transformed).bytes
      = flat (enc_pairs S) := by
    simp [Transformed.bytes]
  refine ⟨by simp, by simp; omega, by simp, hbytes, ?_⟩
  rw [hbytes]
  have hpos := enc_pairs_pos hS
  have h := rle_decompress_spec (flat (enc_pairs S)) mid (by simp; omega)
    (by simp; unfold U64 I64 at *; omega) hmid (by unfold U64 I64 at *; omega)
    (Or.inr (by rw [to_pairs_flat, total_enc_pairs]; omega))
  rw [h, to_pairs_flat, fitting_all _ _ (by rw [total_enc_pairs]; omega)]
  simp only [List.take_length, total_enc_pairs, expand_enc_pairs, lt_self_iff_false,
    decide_False]
  rw [List.drop_eq_nil_of_le (by omega)]
  simp

theorem u64_bytes_length (order : ByteOrder) (n : Nat) : (u64_bytes order n).length = 8 := by
  cases order <;> simp [u64_bytes]

theorem u64_value_bytes (order : ByteOrder) (n : Nat) (hn : n < U64) (rest : List Byte) :
    u64_value order (u64_bytes order n ++ rest) = n := by
  have hr : List.range 8 = [0, 1, 2, 3, 4, 5, 6, 7] := rfl
  unfold U64 at hn
  cases order <;>
    simp only [u64_value, u64_bytes, hr, List.map, List.reverse_cons, List.reverse_nil,
      List.nil_append, List.cons_append, List.take_succ_cons, List.take_zero, List.foldr,
      List.reverse_reverse] <;>
    norm_num <;> omega

/-- What `rle_compress` returns when the capacity is ample. -/
theorem rle_compress_ample (S : List Byte) (out : SizedBuffer)
    (hwf : out.size = out.buffer.length) (hcap : out.size < I64) (hroom : 2 * S.length ≤ out.size) :
    rle_compress (.of_bytes S) out =
      .ok ⟨2 * (enc_pairs S).length,
        flat (enc_pairs S) ++ out.buffer.drop (2 * (enc_pairs S).length), false⟩ := by
  have hn : S.length < U64 := by unfold U64 I64 at *; omega
  have hlen := enc_pairs_length S
  have hk : min (enc_pairs S).length (out.size / 2) = (enc_pairs S).length := by omega
  rw [rle_compress_spec S out hn hwf hcap, hk]
  simp

theorem compress_spec (order : ByteOrder) (malloc : Nat → List Byte) (files : Files)
    (inp mid : Path) (S : List Byte) (hm : ∀ n, (malloc n).length = n)
    (hin : files inp = some S) (hS : S ≠ []) (hsz : 8 + 2 * S.length < I64) :
    compress order malloc files inp mid =
      .ok ⟨write_file files mid (u64_bytes order S.length ++ flat (enc_pairs S)), []⟩ := by
  have hpos : S.length ≠ 0 := fun h => hS (List.length_eq_zero.mp h)
  have hmod : (8 + 2 * S.length) % U64 = 8 + 2 * S.length :=
    mod_u64 (by unfold U64 I64 at *; omega)
  have hr := rle_compress_ample S ⟨8 + 2 * S.length, malloc (8 + 2 * S.length)⟩
    (by simp [hm]) hsz (by simp)
  have hlen := enc_pairs_length S
  simp only [compress, read_entire_file, hin, hpos, if_false, hmod]
  rw [show (⟨S.length, S⟩ : FileContent) = FileContent.of_bytes S from rfl, hr]
  simp only [List.length_append, flat_length, List.length_drop, hm]
  rw [if_pos (by omega)]
  simp [capacity_diagnostic]

theorem decompress_spec (order : ByteOrder) (malloc : Nat → List Byte) (files : Files)
    (mid dst : Path) (S : List Byte) (hm : ∀ n, (malloc n).length = n)
    (hmid : files mid = some (u64_bytes order S.length ++ flat (enc_pairs S)))
    (hS : S ≠ []) (hsz : 8 + 2 * S.length < I64) :
    decompress order malloc files mid dst = .ok ⟨write_file files dst S, []⟩ := by
  have hn : S.length < U64 := by unfold U64 I64 at *; omega
  have hlen := enc_pairs_length S
  have hpos := enc_pairs_pos hS
  have hsize : (u64_bytes order S.length ++ flat (enc_pairs S)).length
      = 8 + 2 * (enc_pairs S).length := by simp [u64_bytes_length]
  have hmod : 8 + 2 * (enc_pairs S).length - 8 = 2 * (enc_pairs S).length := by omega
  have hdrop : (u64_bytes order S.length ++ flat (enc_pairs S)).drop 8 = flat (enc_pairs S) := by
    rw [List.drop_append_of_le_length (by simp [u64_bytes_length])]
    rw [List.drop_eq_nil_of_le (by simp [u64_bytes_length])]
    simp
  have hdec := rle_decompress_spec (flat (enc_pairs S)) ⟨S.length, malloc S.length⟩
    (by simp; omega) (by simp; unfold U64 I64 at *; omega) (by simp [hm]) hn
    (Or.inr (by rw [to_pairs_flat, total_enc_pairs]))
  rw [to_pairs_flat, fitting_all _ _ (by rw [total_enc_pairs])] at hdec
  simp only [List.take_length, total_enc_pairs, expand_enc_pairs, lt_self_iff_false,
    decide_False] at hdec
  rw [List.drop_eq_nil_of_le (by simp [hm]), List.append_nil] at hdec
  unfold decompress read_entire_file
  rw [hmid]
  simp only
  rw [hsize, if_neg (by omega), hmod, hdrop, u64_value_bytes order S.length hn]
  rw [show (⟨2 * (enc_pairs S).length, flat (enc_pairs S)⟩ : FileContent)
    = FileContent.of_bytes (flat (enc_pairs S)) from by simp [FileContent.of_bytes], hdec]
  simp [capacity_diagnostic]

/-- The encoder when the capacity test fails at once: nothing is written. -/
theorem rle_compress_no_room (S : List Byte) (out : SizedBuffer) (hS : S ≠ [])
    (hn : S.length < U64) (hroom : has_room 0 out.size = .ok false) :
    rle_compress (.of_bytes S) out = .ok ⟨0, out.buffer, true⟩ := by
  have hpos : 0 < S.length := List.length_pos.mpr hS
  obtain ⟨i', count', a', h1, -, -, -, -⟩ :=
    scan_spec S hn S.length 0 1 (S[0]) (List.getElem?_eq_getElem hpos) (by omega)
  unfold rle_compress FileContent.of_bytes
  rw [rle_compress_loop, if_pos hpos, h1]
  simp only
  rw [hroom]

/-- C1, at the failing input.  For the empty input `rle_compress` writes nothing
(with capacity `2 * 0` and with capacity `8 + 2 * 0`), and `rle_decompress` on
the zero bytes it wrote does not return written length 0: its loop bound
`in_buffer_size - 1` wraps to `2 ^ 64 - 1` and it reads `in_buffer[0]` outside
the payload. -/
theorem round_trip_empty_input_reads_out_of_bounds :
    rle_compress (.of_bytes []) ⟨0, []⟩ = .ok ⟨0, [], false⟩ ∧
      rle_compress (.of_bytes []) ⟨8, zeroed 8⟩ = .ok ⟨0, zeroed 8, false⟩ ∧
      (match rle_compress (.of_bytes []) ⟨0, []⟩ with
        | .ok r => rle_decompress (.of_bytes r.bytes) ⟨0, []⟩
        | .error e => .error e) = .error .out_of_bounds :=
  ⟨rfl, rfl, rfl⟩

/-- The container round trip for any non-empty content whose output buffer
size `8 + 2 * |S|` is representable as a non-negative `int64_t`. -/
theorem container_round_trip (order : ByteOrder) (malloc : Nat → List Byte) (files : Files)
    (inp mid outp : Path) (S : List Byte) (hm : ∀ n, (malloc n).length = n)
    (hin : files inp = some S) (hS : S ≠ []) (hsz : 8 + 2 * S.length < I64) :
    compress_then_decompress order malloc files inp mid outp =
      .ok ⟨write_file (write_file files mid (u64_bytes order S.length ++ flat (enc_pairs S)))
        outp S, []⟩ := by
  unfold compress_then_decompress
  rw [compress_spec order malloc files inp mid S hm hin hS hsz]
  simp only
  rw [decompress_spec order malloc _ mid outp S hm (by simp [write_file]) hS hsz]
  simp

/-! ## Runs of one byte -/

theorem enc_run_replicate (b : Byte) :
    ∀ (m : Nat) (count : Byte), 0 < count.val →
      enc_run (List.replicate m b) b count = run_chunks b (count.val + m) := by
  intro m
  induction m with
  | zero =>
    intro count hc
    have hlt := count.isLt
    simp only [List.replicate_zero, enc_run, Nat.add_zero, run_chunks]
    by_cases h255 : count.val = 255
    · have : count = 255 := Fin.ext h255
      subst this
      rfl
    · have hdiv : count.val / 255 = 0 := by omega
      have hmod : count.val % 255 = count.val := by omega
      rw [hdiv, if_neg (by omega)]
      simp only [List.replicate_zero, List.nil_append, List.cons.injEq, Prod.mk.injEq,
        true_and, and_true]
      exact Fin.ext (by simp; omega)
  | succ m ih =>
    intro count hc
    have hlt := count.isLt
    rw [List.replicate_succ, enc_run]
    by_cases h255 : count < 255
    · rw [if_pos ⟨rfl, h255⟩, ih (count + 1) (by rw [val_succ h255]; omega), val_succ h255]
      congr 1
      omega
    · rw [if_neg (fun h => h255 h.2)]
      have hv : count.val = 255 := by
        have : ¬ count.val < 255 := h255
        omega
      have hc255 : count = 255 := Fin.ext hv
      subst hc255
      rw [ih 1 (by decide)]
      have h1 : ((255 : Byte).val + (m + 1)) / 255 = ((1 : Byte).val + m) / 255 + 1 := by
        simp; omega
      have h2 : ((255 : Byte).val + (m + 1)) % 255 = ((1 : Byte).val + m) % 255 := by
        simp; omega
      simp only [run_chunks, h1, h2, List.replicate_succ, List.cons_append]

/-- The pairs the encoder emits for `L` copies of `b`. -/
theorem enc_pairs_replicate (b : Byte) (L : Nat) (hL : 0 < L) :
    enc_pairs (List.replicate L b) = run_chunks b L := by
  obtain ⟨m, rfl⟩ : ∃ m, L = m + 1 := ⟨L - 1, by omega⟩
  rw [List.replicate_succ, enc_pairs, enc_run_replicate b m 1 (by decide)]
  congr 1
  simp; omega

theorem run_chunks_length (b : Byte) (t : Nat) : (run_chunks b t).length = (t + 254) / 255 := by
  unfold run_chunks
  split <;> simp <;> omega

/-- What `rle_compress` returns when every pair fits. -/
theorem rle_compress_fits (S : List Byte) (out : SizedBuffer) (hn : S.length < U64)
    (hwf : out.size = out.buffer.length) (hcap : out.size < I64)
    (hroom : 2 * (enc_pairs S).length ≤ out.size) :
    rle_compress (.of_bytes S) out =
      .ok ⟨2 * (enc_pairs S).length,
        flat (enc_pairs S) ++ out.buffer.drop (2 * (enc_pairs S).length), false⟩ := by
  have hk : min (enc_pairs S).length (out.size / 2) = (enc_pairs S).length := by omega
  rw [rle_compress_spec S out hn hwf hcap, hk]
  simp

theorem bytes_append (ps : List Byte) (rest : List Byte) (n : Nat) (b : Bool)
    (h : n = ps.length) : (⟨n, ps ++ rest, b⟩ : Transformed).bytes = ps := by
  subst h
  simp [Transformed.bytes]

theorem mem_run_chunks {b : Byte} {t : Nat} {p : Byte × Byte} (h : p ∈ run_chunks b t) :
    p.1 = b ∧ 0 < p.2.val ∧ p.2.val ≤ 255 := by
  unfold run_chunks at h
  rw [List.mem_append] at h
  rcases h with h | h
  · rw [List.eq_of_mem_replicate h]
    exact ⟨rfl, show 0 < (255 : Byte).val by decide, show (255 : Byte).val ≤ 255 by decide⟩
  · split at h
    · simp at h
    · rw [List.mem_singleton] at h
      subst h
      refine ⟨rfl, ?_, ?_⟩ <;> simp <;> omega

/-- C4.  For every byte `b` and every length `L > 255` (a `uint64_t` size),
`rle_compress` on `L` copies of `b`, with an output buffer that has room for
`ceil (L / 255)` pairs, writes exactly `ceil (L / 255)` pairs without taking the
capacity branch: `floor (L / 255)` pairs `(b, 255)` followed, when
`L mod 255 ≠ 0`, by one pair `(b, L mod 255)`; every pair has value `b` and a
count between 1 and 255, and the counts sum to `L`. -/
theorem run_splitting (b : Byte) (L : Nat) (out : SizedBuffer) (hL : 255 < L) (hLn : L < U64)
    (hwf : out.size = out.buffer.length) (hcap : out.size < I64)
    (hroom : 2 * ((L + 254) / 255) ≤ out.size) :
    ∃ r, rle_compress (.of_bytes (List.replicate L b)) out = .ok r ∧ r.exceeded = false ∧
      r.written = 2 * ((L + 254) / 255) ∧
      to_pairs r.bytes = run_chunks b L ∧
      (to_pairs r.bytes).length = (L + 254) / 255 ∧
      (∀ p ∈ to_pairs r.bytes, p.1 = b ∧ 0 < p.2.val ∧ p.2.val ≤ 255) ∧
      total (to_pairs r.bytes) = L ∧
      (to_pairs r.bytes).take (L / 255) = List.replicate (L / 255) (b, 255) ∧
      ((to_pairs r.bytes).drop (L / 255)).map (fun p => (p.1, p.2.val))
        = (if L % 255 = 0 then [] else [(b, L % 255)]) := by
  have hpairs : enc_pairs (List.replicate L b) = run_chunks b L :=
    enc_pairs_replicate b L (by omega)
  have hlen : (enc_pairs (List.replicate L b)).length = (L + 254) / 255 := by
    rw [hpairs, run_chunks_length]
  have hr := rle_compress_fits (List.replicate L b) out (by simpa using hLn) hwf hcap
    (by rw [hlen]; exact hroom)
  have hbytes := bytes_append (flat (enc_pairs (List.replicate L b)))
    (out.buffer.drop (2 * (enc_pairs (List.replicate L b)).length))
    (2 * (enc_pairs (List.replicate L b)).length) false (by simp)
  refine ⟨_, hr, rfl, by rw [hlen], ?_, ?_, ?_, ?_, ?_, ?_⟩
  · rw [hbytes, to_pairs_flat, hpairs]
  · rw [hbytes, to_pairs_flat, hlen]
  · rw [hbytes, to_pairs_flat, hpairs]
    intro p hp
    exact mem_run_chunks hp
  · rw [hbytes, to_pairs_flat, total_enc_pairs, List.length_replicate]
  · rw [hbytes, to_pairs_flat, hpairs, run_chunks, List.take_left' (by simp)]
  · rw [hbytes, to_pairs_flat, hpairs, run_chunks, List.drop_left' (by simp)]
    split
    · rfl
    · simp
      omega

theorem run_splitting_witness :
    ∃ r, rle_compress (.of_bytes (List.replicate 600 7)) ⟨6, zeroed 6⟩ = .ok r ∧
      r.exceeded = false ∧
      r.written = 2 * ((600 + 254) / 255) ∧
      to_pairs r.bytes = run_chunks 7 600 ∧
      (to_pairs r.bytes).length = (600 + 254) / 255 ∧
      (∀ p ∈ to_pairs r.bytes, p.1 = 7 ∧ 0 < p.2.val ∧ p.2.val ≤ 255) ∧
      total (to_pairs r.bytes) = 600 ∧
      (to_pairs r.bytes).take (600 / 255) = List.replicate (600 / 255) (7, 255) ∧
      ((to_pairs r.bytes).drop (600 / 255)).map (fun p => (p.1, p.2.val))
        = (if 600 % 255 = 0 then [] else [(7, 600 % 255)]) :=
  run_splitting 7 600 ⟨6, zeroed 6⟩ (by decide) (by decide) (by simp [zeroed]) (by decide)
    (by decide)

theorem enc_run_chain (rest : List Byte) :
    ∀ a : Byte, List.Chain' (fun x y => x ≠ y) (a :: rest) →
      enc_run rest a 1 = (a :: rest).map (fun b => (b, 1)) := by
  induction rest with
  | nil => intro a _; rfl
  | cons b rest ih =>
    intro a h
    rw [List.chain'_cons] at h
    rw [enc_run, if_neg (fun hc => h.1 hc.1), ih b h.2]
    rfl

/-- The pairs for an input without two equal adjacent bytes. -/
theorem enc_pairs_chain (S : List Byte) (h : List.Chain' (fun x y => x ≠ y) S) :
    enc_pairs S = S.map (fun b => (b, 1)) := by
  cases S with
  | nil => rfl
  | cons a rest => rw [enc_pairs, enc_run_chain rest a h]

theorem flat_map_one (S : List Byte) :
    flat (S.map (fun b => (b, (1 : Byte)))) = S.flatMap (fun b => [b, 1]) := by
  induction S with
  | nil => rfl
  | cons a S ih => simp [ih]

/-- C5.  For every byte sequence `S` in which no two adjacent bytes are equal,
`rle_compress` with an output buffer of capacity at least `2 * |S|` (a buffer
size below `2 ^ 63`) writes exactly `2 * |S|` bytes without taking the capacity
branch, namely the pair `(S[k], 1)` for each position `k` in order. -/
theorem worst_case_sizing (S : List Byte) (out : SizedBuffer)
    (hadj : List.Chain' (fun x y => x ≠ y) S)
    (hwf : out.size = out.buffer.length) (hcap : out.size < I64)
    (hroom : 2 * S.length ≤ out.size) :
    ∃ r, rle_compress (.of_bytes S) out = .ok r ∧ r.exceeded = false ∧
      r.written = 2 * S.length ∧ r.bytes = S.flatMap (fun b => [b, 1]) := by
  have hn : S.length < U64 := by unfold U64 I64 at *; omega
  have hpairs := enc_pairs_chain S hadj
  have hlen : (enc_pairs S).length = S.length := by rw [hpairs, List.length_map]
  refine ⟨_, rle_compress_fits S out hn hwf hcap (by omega), rfl, by rw [hlen], ?_⟩
  rw [bytes_append _ _ _ _ (by simp), hpairs, flat_map_one]

theorem worst_case_sizing_witness :
    ∃ r, rle_compress (.of_bytes [1, 2, 1, 3]) ⟨8, zeroed 8⟩ = .ok r ∧ r.exceeded = false ∧
      r.written = 2 * ([1, 2, 1, 3] : List Byte).length ∧
      r.bytes = ([1, 2, 1, 3] : List Byte).flatMap (fun b => [b, 1]) :=
  worst_case_sizing [1, 2, 1, 3] ⟨8, zeroed 8⟩ (by simp) (by simp [zeroed]) (by decide)
    (by decide)

/-- C6.  For every input `S`, an output buffer of capacity `2 * |S|` (a buffer
size below `2 ^ 63`) is enough: `rle_compress` returns without taking the
capacity-exceeded branch, what it wrote encodes all of `S` (its pairs expand to
`S`), and it wrote at most `2 * |S|` bytes. -/
theorem sizing_guarantee (S : List Byte) (out : SizedBuffer)
    (hwf : out.size = out.buffer.length) (hcap : out.size < I64)
    (hroom : out.size = 2 * S.length) :
    ∃ r, rle_compress (.of_bytes S) out = .ok r ∧ r.exceeded = false ∧
      r.written ≤ 2 * S.length ∧ r.bytes.length = r.written ∧
      expand (to_pairs r.bytes) = S := by
  have hn : S.length < U64 := by unfold U64 I64 at *; omega
  have hlen := enc_pairs_length S
  have hb := bytes_append (flat (enc_pairs S)) (out.buffer.drop (2 * (enc_pairs S).length))
    (2 * (enc_pairs S).length) false (by simp)
  refine ⟨_, rle_compress_fits S out hn hwf hcap (by omega), rfl, ?_, ?_, ?_⟩
  · show 2 * (enc_pairs S).length ≤ 2 * S.length
    omega
  · rw [hb, flat_length]
  · rw [hb, to_pairs_flat, expand_enc_pairs]

theorem sizing_guarantee_witness :
    ∃ r, rle_compress (.of_bytes [4, 4, 5]) ⟨6, zeroed 6⟩ = .ok r ∧ r.exceeded = false ∧
      r.written ≤ 2 * ([4, 4, 5] : List Byte).length ∧ r.bytes.length = r.written ∧
      expand (to_pairs r.bytes) = [4, 4, 5] :=
  sizing_guarantee [4, 4, 5] ⟨6, zeroed 6⟩ (by simp [zeroed]) (by decide) (by decide)

/-- C7.  Let the complete encoding of `S` be what `rle_compress` returns
without taking the capacity branch (in some output buffer `full`).  For every
output capacity smaller than its length, `rle_compress` takes the
capacity-exceeded branch and returns a written length that is at most the
capacity, strictly less than the length of the complete encoding, and even (a
whole number of pairs, as many as fit); the bytes it wrote are exactly the
first `written` bytes of the complete encoding, and the rest of the buffer is
untouched. -/
theorem encoder_truncation (S : List Byte) (full out : SizedBuffer) (rf : Transformed)
    (hn : S.length < U64) (hfwf : full.size = full.buffer.length) (hfcap : full.size < I64)
    (hfull : rle_compress (.of_bytes S) full = .ok rf) (hcomplete : rf.exceeded = false)
    (hwf : out.size = out.buffer.length) (hsmall : out.size < rf.written) :
    ∃ r, rle_compress (.of_bytes S) out = .ok r ∧ r.exceeded = true ∧
      r.written ≤ out.size ∧ r.written < rf.written ∧ 2 ∣ r.written ∧
      out.size < r.written + 2 ∧ r.bytes = rf.bytes.take r.written ∧
      r.buffer.drop r.written = out.buffer.drop r.written := by
  rw [rle_compress_spec S full hn hfwf hfcap] at hfull
  cases hfull
  simp only [decide_eq_false_iff_not, not_lt] at hcomplete
  have hkf : min (enc_pairs S).length (full.size / 2) = (enc_pairs S).length := by omega
  rw [hkf] at hsmall
  simp only at hsmall
  have hcap : out.size < I64 := by omega
  have hk : min (enc_pairs S).length (out.size / 2) = out.size / 2 := by omega
  refine ⟨_, rle_compress_spec S out hn hwf hcap, ?_, ?_, ?_, ?_, ?_, ?_, ?_⟩
  · rw [hk]
    simp only [decide_eq_true_eq]
    omega
  · simp only [hk]; omega
  · simp only [hk, hkf]; omega
  · exact ⟨_, rfl⟩
  · simp only [hk]; omega
  · rw [hk, hkf, List.take_length]
    rw [bytes_append _ _ _ _ (by simp; omega), bytes_append _ _ _ _ (by simp), flat_take]
  · rw [hk, List.drop_append_of_le_length (by simp; omega), List.drop_eq_nil_of_le (by simp)]
    simp

theorem encoder_truncation_witness :
    ∃ r, rle_compress (.of_bytes [1, 1, 2, 3]) ⟨5, zeroed 5⟩ = .ok r ∧ r.exceeded = true ∧
      r.written ≤ (⟨5, zeroed 5⟩ : SizedBuffer).size ∧
      r.written < (⟨6, [1, 2, 2, 1, 3, 1, 0, 0], false⟩ : Transformed).written ∧
      2 ∣ r.written ∧ (⟨5, zeroed 5⟩ : SizedBuffer).size < r.written + 2 ∧
      r.bytes = (⟨6, [1, 2, 2, 1, 3, 1, 0, 0], false⟩ : Transformed).bytes.take r.written ∧
      r.buffer.drop r.written = (⟨5, zeroed 5⟩ : SizedBuffer).buffer.drop r.written :=
  encoder_truncation [1, 1, 2, 3] ⟨8, zeroed 8⟩ ⟨5, zeroed 5⟩ ⟨6, [1, 2, 2, 1, 3, 1, 0, 0], false⟩
    (by decide) (by simp [zeroed]) (by decide) rfl rfl (by simp [zeroed]) (by decide)

theorem fitting_stop (ps : List (Byte × Byte)) :
    ∀ room : Nat, fitting room ps < ps.length →
      room < total (ps.take (fitting room ps + 1)) := by
  induction ps with
  | nil => intro room h; simp [fitting] at h
  | cons p ps ih =>
    intro room h
    rw [fitting] at h ⊢
    split
    · rename_i hle
      rw [if_pos hle] at h
      have := ih (room - p.2.val) (by simpa using h)
      simp only [List.take_succ_cons, total_cons]
      omega
    · simp only [Nat.zero_add, List.take_succ_cons, List.take_zero, total_cons, total_nil]
      omega

theorem total_take_le (ps : List (Byte × Byte)) (k : Nat) : total (ps.take k) ≤ total ps := by
  induction ps generalizing k with
  | nil => simp
  | cons p ps ih =>
    cases k with
    | zero => simp
    | succ k => simp only [List.take_succ_cons, total_cons]; have := ih k; omega

theorem to_pairs_length (p : List Byte) : 2 * (to_pairs p).length ≤ p.length := by
  induction p using to_pairs.induct with
  | case1 a b rest ih => rw [to_pairs]; simp; omega
  | case2 p h =>
    match p, h with
    | [], _ => simp [to_pairs]
    | [_], _ => simp [to_pairs]
    | a :: b :: rest, h => exact absurd rfl (h a b rest)

/-- C8.  For every payload and every output buffer whose capacity `c` is smaller
than the sum of the counts of the payload's complete pairs (with `c + 255`
below `2 ^ 64`, so that `j + count` does not wrap), `rle_decompress` takes the
capacity-exceeded branch at the first pair for which `written_so_far + count`
exceeds `c`: for some index `k` the first `k` pairs fit, pair `k` does not,
the written length is the sum of the first `k` counts (at most `c`, strictly
less than the sum of all counts), and the output is the expansion of the pairs
before pair `k`. -/
theorem decoder_truncation (p : List Byte) (out : SizedBuffer) (hm : p.length < U64)
    (hwf : out.size = out.buffer.length) (hcap : out.size + 255 < U64)
    (hsmall : out.size < total (to_pairs p)) :
    ∃ r k, rle_decompress (.of_bytes p) out = .ok r ∧ r.exceeded = true ∧
      k < (to_pairs p).length ∧
      total ((to_pairs p).take k) ≤ out.size ∧
      out.size < total ((to_pairs p).take (k + 1)) ∧
      r.written = total ((to_pairs p).take k) ∧
      r.written ≤ out.size ∧ r.written < total (to_pairs p) ∧
      r.bytes = expand ((to_pairs p).take k) ∧
      r.buffer.drop r.written = out.buffer.drop r.written := by
  have h0 : 0 < p.length := by
    cases p with
    | nil => simp [to_pairs] at hsmall
    | cons a p => simp
  have hk := fitting_lt hsmall
  have hfit := total_take_fitting (to_pairs p) out.size
  refine ⟨_, fitting out.size (to_pairs p),
    rle_decompress_spec p out h0 hm hwf (by omega) (Or.inl hcap), ?_, hk, hfit,
    fitting_stop _ _ hk, rfl, hfit, by simp only; omega, ?_, ?_⟩
  · simp only [decide_eq_true_eq]; exact hk
  · rw [bytes_append _ _ _ _ (by simp)]
  · rw [List.drop_append_of_le_length (by simp), List.drop_eq_nil_of_le (by simp)]
    simp

theorem decoder_truncation_witness :
    ∃ r k, rle_decompress (.of_bytes [1, 3, 2, 4, 9]) ⟨5, zeroed 5⟩ = .ok r ∧
      r.exceeded = true ∧
      k < (to_pairs [1, 3, 2, 4, 9]).length ∧
      total ((to_pairs [1, 3, 2, 4, 9]).take k) ≤ (⟨5, zeroed 5⟩ : SizedBuffer).size ∧
      (⟨5, zeroed 5⟩ : SizedBuffer).size < total ((to_pairs [1, 3, 2, 4, 9]).take (k + 1)) ∧
      r.written = total ((to_pairs [1, 3, 2, 4, 9]).take k) ∧
      r.written ≤ (⟨5, zeroed 5⟩ : SizedBuffer).size ∧
      r.written < total (to_pairs [1, 3, 2, 4, 9]) ∧
      r.bytes = expand ((to_pairs [1, 3, 2, 4, 9]).take k) ∧
      r.buffer.drop r.written = (⟨5, zeroed 5⟩ : SizedBuffer).buffer.drop r.written :=
  decoder_truncation [1, 3, 2, 4, 9] ⟨5, zeroed 5⟩ (by decide) (by simp [zeroed]) (by decide)
    (by decide)

/-- C9.  For every non-empty payload made of the complete pairs `ps` and every
output buffer of capacity at least the sum of their counts, `rle_decompress`
returns that sum as written length and an output equal to `c_1` copies of
`v_1` followed by `c_2` copies of `v_2` and so on, without taking the
capacity-exceeded branch; the rest of the buffer is untouched. -/
theorem decoder_reference (ps : List (Byte × Byte)) (out : SizedBuffer) (hne : ps ≠ [])
    (hm : (flat ps).length < U64) (hwf : out.size = out.buffer.length) (hcap : out.size < U64)
    (hroom : total ps ≤ out.size) :
    ∃ r, rle_decompress (.of_bytes (flat ps)) out = .ok r ∧ r.exceeded = false ∧
      r.written = total ps ∧ r.bytes = expand ps ∧
      r.buffer.drop r.written = out.buffer.drop r.written := by
  have hpos : 0 < ps.length := List.length_pos.mpr hne
  have h := rle_decompress_spec (flat ps) out (by rw [flat_length]; omega) hm hwf hcap
    (Or.inr (by rw [to_pairs_flat]; exact hroom))
  rw [to_pairs_flat, fitting_all ps out.size hroom, List.take_length] at h
  refine ⟨_, h, by simp, rfl, ?_, ?_⟩
  · rw [bytes_append _ _ _ _ (by simp)]
  · rw [List.drop_append_of_le_length (by simp), List.drop_eq_nil_of_le (by simp)]
    simp

theorem decoder_reference_witness :
    ∃ r, rle_decompress (.of_bytes (flat [(7, 2), (9, 0), (8, 3)])) ⟨6, zeroed 6⟩ = .ok r ∧
      r.exceeded = false ∧
      r.written = total [(7, 2), (9, 0), (8, 3)] ∧ r.bytes = expand [(7, 2), (9, 0), (8, 3)] ∧
      r.buffer.drop r.written = (⟨6, zeroed 6⟩ : SizedBuffer).buffer.drop r.written :=
  decoder_reference [(7, 2), (9, 0), (8, 3)] ⟨6, zeroed 6⟩ (by simp) (by decide)
    (by simp [zeroed]) (by decide) (by decide)

theorem to_pairs_dropLast (p : List Byte) (hodd : p.length % 2 = 1) :
    to_pairs p.dropLast = to_pairs p := by
  induction p using to_pairs.induct with
  | case1 a b rest ih =>
    have hrest : rest.length % 2 = 1 := by simp at hodd; omega
    have hne : rest ≠ [] := by
      intro h
      rw [h] at hrest
      simp at hrest
    obtain ⟨x, xs, rfl⟩ := List.exists_cons_of_ne_nil hne
    rw [List.dropLast_cons₂, List.dropLast_cons₂, to_pairs, to_pairs, ih hrest]
  | case2 p h =>
    match p, h, hodd with
    | [], _, hodd => simp at hodd
    | [_], _, _ => rfl
    | a :: b :: rest, h, _ => exact absurd rfl (h a b rest)

/-- The dangling byte of an odd-length payload of at least three bytes is
ignored: decoding the payload and decoding it without its last byte agree. -/
theorem odd_payload_from_three (p : List Byte) (out : SizedBuffer) (hodd : p.length % 2 = 1)
    (h3 : 3 ≤ p.length) (hm : p.length < U64) (hwf : out.size = out.buffer.length)
    (hcap : out.size < U64) (hH : out.size + 255 < U64 ∨ total (to_pairs p) ≤ out.size) :
    rle_decompress (.of_bytes p) out = rle_decompress (.of_bytes p.dropLast) out := by
  rw [rle_decompress_spec p out (by omega) hm hwf hcap hH,
    rle_decompress_spec p.dropLast out (by simp; omega) (by simp; omega) hwf hcap
      (by rw [to_pairs_dropLast p hodd]; exact hH),
    to_pairs_dropLast p hodd]

/-- C10, at the failing input.  On the one-byte payload `[5]` the decoder ignores
the dangling byte and returns written length 0 without any diagnostic, but on
that payload with its last byte removed (the empty payload) it does not return
the same result: its loop bound wraps and it reads outside the payload. -/
theorem odd_payload_of_length_one_diverges :
    rle_decompress (.of_bytes [5]) ⟨4, zeroed 4⟩ = .ok ⟨0, zeroed 4, false⟩ ∧
      rle_decompress (.of_bytes ([5] : List Byte).dropLast) ⟨4, zeroed 4⟩
        = .error .out_of_bounds :=
  ⟨rfl, rfl⟩

/-- C11, at the failing input.  On a payload of size 0, whatever the output
buffer, `rle_decompress` does not return written length 0: the loop bound
`in_buffer_size - 1` wraps to `2 ^ 64 - 1`, the loop is entered and
`in_buffer[0]` is read outside the payload.  In particular `decompress` on a
container of exactly 8 bytes does not produce an output. -/
theorem empty_payload_reads_out_of_bounds (out : SizedBuffer) :
    rle_decompress (.of_bytes []) out = .error .out_of_bounds ∧
      (decompress .little zeroed
          (fun q => if q = "in" then some [0, 0, 0, 0, 0, 0, 0, 0] else none)
          "in" "out").map (fun o => o.files "out") = .error .out_of_bounds :=
  ⟨rfl, rfl⟩

/-- C12.  For every output buffer (of any capacity, 0 included), `rle_compress`
on an input of size 0 writes no pair, leaves the buffer as it was, returns
written length 0 and does not take the capacity-exceeded branch. -/
theorem empty_input (out : SizedBuffer) :
    rle_compress (.of_bytes []) out = .ok ⟨0, out.buffer, false⟩ ∧
      (⟨0, out.buffer, false⟩ : Transformed).bytes = [] :=
  ⟨rfl, by simp [Transformed.bytes]⟩

/-- C18 as stated fails outside the signed range: with capacity `2 ^ 63 + 5` no
offset passes the test although 2 bytes remain at offset 0, with offset
`2 ^ 63` the test passes for capacity 5, and for capacity `2 ^ 63` the signed
subtraction itself overflows. -/
theorem capacity_check_counterexample :
    (9223372036854775813 < U64 ∧ has_room 0 9223372036854775813 = .ok false ∧
        0 + 2 ≤ 9223372036854775813) ∧
      (9223372036854775808 < U64 ∧ has_room 9223372036854775808 5 = .ok true ∧
        ¬ 9223372036854775808 + 2 ≤ 5) ∧
      has_room 0 9223372036854775808 = .error .signed_overflow :=
  ⟨⟨by decide, rfl, by decide⟩, ⟨by decide, rfl, by decide⟩, rfl⟩

/-- C18, amended.  For every written offset `j` and every output capacity `c`
below `2 ^ 63` (the values that are non-negative as `int64_t`), the encoder's
test `(int64_t)j < (int64_t)c - 1` is defined and passes exactly when at least
2 bytes of capacity remain, that is exactly when `j + 2 ≤ c`. -/
theorem capacity_check (j c : Nat) (hj : j < I64) (hc : c < I64) :
    has_room j c = .ok (decide (j + 2 ≤ c)) := by
  have h1 : c % U64 = c := mod_u64 (by unfold U64 I64 at *; omega)
  have h2 : j % U64 = j := mod_u64 (by unfold U64 I64 at *; omega)
  have h3 : to_int64 c = (c : Int) := by
    unfold to_int64
    rw [h1, if_pos hc]
  have h4 : to_int64 j = (j : Int) := by
    unfold to_int64
    rw [h2, if_pos hj]
  unfold has_room
  rw [h3, h4, if_neg (by unfold I64; omega)]
  congr 1
  rw [decide_eq_decide]
  omega

theorem capacity_check_witness :
    has_room 4 6 = .ok (decide (4 + 2 ≤ 6)) :=
  capacity_check 4 6 (by decide) (by decide)

theorem has_room_negative {c : Nat} (h1 : I64 < c) (h2 : c < U64) :
    has_room 0 c = .ok false := by
  have hc : to_int64 c = (c : Int) - (U64 : Int) := by
    unfold to_int64
    rw [mod_u64 h2, if_neg (by omega)]
  have h0 : to_int64 0 = 0 := by rfl
  unfold has_room
  rw [hc, h0, if_neg (by unfold U64 I64 at *; omega)]
  congr 1
  rw [decide_eq_false_iff_not]
  unfold U64 I64 at *
  omega

/-- The encoder returns for every capacity at which its test is defined: it
writes the first `k` pairs of `enc_pairs S` for some `k`. -/
theorem rle_compress_returns (S : List Byte) (out : SizedBuffer) (hn : S.length < U64)
    (hwf : out.size = out.buffer.length) (hcap : out.size < U64) (hub : out.size ≠ I64) :
    ∃ k, k ≤ (enc_pairs S).length ∧ 2 * k ≤ out.buffer.length ∧
      rle_compress (.of_bytes S) out =
        .ok ⟨2 * k, flat ((enc_pairs S).take k) ++ out.buffer.drop (2 * k),
          decide (k < (enc_pairs S).length)⟩ := by
  by_cases hlt : out.size < I64
  · exact ⟨min (enc_pairs S).length (out.size / 2), by omega, by omega,
      rle_compress_spec S out hn hwf hlt⟩
  · have hgt : I64 < out.size := by omega
    refine ⟨0, Nat.zero_le _, Nat.zero_le _, ?_⟩
    by_cases hS : S = []
    · subst hS
      rfl
    · rw [rle_compress_no_room S out hS hn (has_room_negative hgt hcap)]
      have := enc_pairs_pos hS
      simp [this]

theorem enc_run_counts (rest : List Byte) :
    ∀ (a count : Byte), 1 ≤ count.val →
      ∀ p ∈ enc_run rest a count, 1 ≤ p.2.val ∧ p.2.val ≤ 255 := by
  induction rest with
  | nil =>
    intro a count hc p hp
    rw [enc_run, List.mem_singleton] at hp
    subst hp
    exact ⟨hc, by have := count.isLt; omega⟩
  | cons b rest ih =>
    intro a count hc p hp
    rw [enc_run] at hp
    split at hp
    · rename_i h
      exact ih b (count + 1) (by rw [val_succ h.2]; omega) p hp
    · rw [List.mem_cons] at hp
      rcases hp with hp | hp
      · subst hp
        exact ⟨hc, by have := count.isLt; omega⟩
      · exact ih b 1 (by decide) p hp

/-- Every pair of the encoder has a count between 1 and 255. -/
theorem enc_pairs_counts (S : List Byte) :
    ∀ p ∈ enc_pairs S, 1 ≤ p.2.val ∧ p.2.val ≤ 255 := by
  cases S with
  | nil => intro p hp; simp [enc_pairs] at hp
  | cons a rest => rw [enc_pairs]; exact enc_run_counts rest a 1 (by decide)

theorem expand_take_drop (ps : List (Byte × Byte)) (k : Nat) :
    expand (ps.take k) ++ expand (ps.drop k) = expand ps := by
  rw [← expand_append, List.take_append_drop]

/-- C13.  For every input `S` and every output buffer whose capacity is a
`uint64_t` at which the capacity test is defined (any value but `2 ^ 63`),
`rle_compress` returns, and every pair it wrote has a count between 1 and 255
inclusive; the pairs stand for consecutive runs of the input: expanding them
(`count` copies of `value` each) gives a prefix of `S`, so the value of a pair is
the input byte at every position of its run. -/
theorem pair_validity (S : List Byte) (out : SizedBuffer) (hn : S.length < U64)
    (hwf : out.size = out.buffer.length) (hcap : out.size < U64) (hub : out.size ≠ I64) :
    ∃ r, rle_compress (.of_bytes S) out = .ok r ∧
      r.bytes.length = r.written ∧ flat (to_pairs r.bytes) = r.bytes ∧
      (∀ p ∈ to_pairs r.bytes, 1 ≤ p.2.val ∧ p.2.val ≤ 255) ∧
      ∃ rest, expand (to_pairs r.bytes) ++ rest = S := by
  obtain ⟨k, hk, hk2, hr⟩ := rle_compress_returns S out hn hwf hcap hub
  have hb := bytes_append (flat ((enc_pairs S).take k)) (out.buffer.drop (2 * k)) (2 * k)
    (decide (k < (enc_pairs S).length)) (by simp; omega)
  refine ⟨_, hr, ?_, ?_, ?_, expand ((enc_pairs S).drop k), ?_⟩
  · rw [hb]; simp; omega
  · rw [hb, to_pairs_flat]
  · rw [hb, to_pairs_flat]
    intro p hp
    exact enc_pairs_counts S p (List.mem_of_mem_take hp)
  · rw [hb, to_pairs_flat, expand_take_drop, expand_enc_pairs]

theorem pair_validity_witness :
    ∃ r, rle_compress (.of_bytes [3, 3, 3, 4]) ⟨3, zeroed 3⟩ = .ok r ∧
      r.bytes.length = r.written ∧ flat (to_pairs r.bytes) = r.bytes ∧
      (∀ p ∈ to_pairs r.bytes, 1 ≤ p.2.val ∧ p.2.val ≤ 255) ∧
      ∃ rest, expand (to_pairs r.bytes) ++ rest = [3, 3, 3, 4] :=
  pair_validity [3, 3, 3, 4] ⟨3, zeroed 3⟩ (by decide) (by simp [zeroed]) (by decide)
    (by decide)

/-- What `compress` does on a non-empty input: it runs the encoder on a buffer
of `8 + 2 * |S|` bytes (modulo `2 ^ 64`) and writes the header followed by the
bytes the encoder produced. -/
theorem compress_returns (order : ByteOrder) (malloc : Nat → List Byte) (files : Files)
    (inp outp : Path) (S : List Byte) (hm : ∀ n, (malloc n).length = n)
    (hin : files inp = some S) (hS : S ≠ []) (hn : S.length < U64)
    (hub : (8 + 2 * S.length) % U64 ≠ I64) :
    ∃ r, rle_compress (.of_bytes S)
          ⟨(8 + 2 * S.length) % U64, malloc ((8 + 2 * S.length) % U64)⟩ = .ok r ∧
      r.bytes.length = r.written ∧
      compress order malloc files inp outp =
        .ok ⟨write_file files outp (u64_bytes order S.length ++ r.bytes),
          capacity_diagnostic r .compress_capacity⟩ := by
  have hpos : S.length ≠ 0 := fun h => hS (List.length_eq_zero.mp h)
  obtain ⟨k, hk, hk2, hr⟩ := rle_compress_returns S
    ⟨(8 + 2 * S.length) % U64, malloc ((8 + 2 * S.length) % U64)⟩ hn (by simp [hm])
    (Nat.mod_lt _ (by decide)) hub
  have hb := bytes_append (flat ((enc_pairs S).take k))
    ((malloc ((8 + 2 * S.length) % U64)).drop (2 * k)) (2 * k)
    (decide (k < (enc_pairs S).length)) (by simp at hk2 ⊢; omega)
  refine ⟨_, hr, by rw [hb]; simp at hk2 ⊢; omega, ?_⟩
  simp only [compress, read_entire_file, hin, hpos, if_false]
  rw [show (⟨S.length, S⟩ : FileContent) = FileContent.of_bytes S from rfl, hr]
  simp only
  rw [if_pos (by simp at hk2 ⊢; omega)]
  simp [Transformed.bytes]

/-- C15.  For every non-empty raw content `S` (a `uint64_t` size, with the
allocated size `8 + 2 * |S|` modulo `2 ^ 64` different from `2 ^ 63`, where the
capacity test is undefined), the file `compress` writes is exactly the 8-byte
encoding of `|S|` in the byte order of the machine followed by the first
`written` bytes that `rle_compress` produced for `S`, not the whole allocated
buffer; its total length is `8 + written` and its header reads back as `|S|`. -/
theorem container_layout (order : ByteOrder) (malloc : Nat → List Byte) (files : Files)
    (inp outp : Path) (S : List Byte) (hm : ∀ n, (malloc n).length = n)
    (hin : files inp = some S) (hS : S ≠ []) (hn : S.length < U64)
    (hub : (8 + 2 * S.length) % U64 ≠ I64) :
    ∃ r o, rle_compress (.of_bytes S)
          ⟨(8 + 2 * S.length) % U64, malloc ((8 + 2 * S.length) % U64)⟩ = .ok r ∧
      compress order malloc files inp outp = .ok o ∧
      o.files outp = some (u64_bytes order S.length ++ r.buffer.take r.written) ∧
      (u64_bytes order S.length ++ r.buffer.take r.written).length = 8 + r.written ∧
      u64_value order (u64_bytes order S.length ++ r.buffer.take r.written) = S.length := by
  obtain ⟨r, hr, hlen, hc⟩ := compress_returns order malloc files inp outp S hm hin hS hn hub
  refine ⟨r, _, hr, hc, by simp [write_file, Transformed.bytes], ?_,
    u64_value_bytes order S.length hn _⟩
  rw [List.length_append, u64_bytes_length]
  exact congrArg (8 + ·) hlen

theorem container_layout_witness :
    ∃ r o, rle_compress (.of_bytes [5, 5, 6])
          ⟨(8 + 2 * ([5, 5, 6] : List Byte).length) % U64,
            zeroed ((8 + 2 * ([5, 5, 6] : List Byte).length) % U64)⟩ = .ok r ∧
      compress .little zeroed (fun q => if q = "in" then some [5, 5, 6] else none)
        "in" "out" = .ok o ∧
      o.files "out"
        = some (u64_bytes .little ([5, 5, 6] : List Byte).length ++ r.buffer.take r.written) ∧
      (u64_bytes .little ([5, 5, 6] : List Byte).length ++ r.buffer.take r.written).length
        = 8 + r.written ∧
      u64_value .little
          (u64_bytes .little ([5, 5, 6] : List Byte).length ++ r.buffer.take r.written)
        = ([5, 5, 6] : List Byte).length :=
  container_layout .little zeroed (fun q => if q = "in" then some [5, 5, 6] else none)
    "in" "out" [5, 5, 6] (fun n => by simp [zeroed]) (by simp) (by simp) (by decide)
    (by decide)

/-- `decompress` on a container that is a bare header: the decoder reads
outside its empty payload. -/
theorem decompress_header_only (order : ByteOrder) (malloc : Nat → List Byte) (files : Files)
    (inp outp : Path) (content : List Byte) (hin : files inp = some content)
    (h8 : content.length = 8) :
    decompress order malloc files inp outp = .error .out_of_bounds := by
  have hdrop : content.drop 8 = [] := List.drop_eq_nil_of_le (by omega)
  unfold decompress read_entire_file
  rw [hin]
  simp only [h8, hdrop, Nat.lt_irrefl, if_false, Nat.sub_self]
  rfl

/-- C19.  For every payload of size at least 1 and every output buffer (with
capacity `+ 255` below `2 ^ 64`, so that `j + count` does not wrap),
`rle_decompress` returns a result: no read of the payload and no write of the
output falls outside its buffer, the out-of-bounds fault is not reached, the
written length is at most the capacity and the buffer keeps its length. -/
theorem decoder_in_bounds (p : List Byte) (out : SizedBuffer) (h0 : 0 < p.length)
    (hm : p.length < U64) (hwf : out.size = out.buffer.length) (hcap : out.size + 255 < U64) :
    ∃ r, rle_decompress (.of_bytes p) out = .ok r ∧
      rle_decompress (.of_bytes p) out ≠ .error .out_of_bounds ∧
      r.written ≤ out.size ∧ r.buffer.length = out.buffer.length := by
  have hr := rle_decompress_spec p out h0 hm hwf (by omega) (Or.inl hcap)
  have hfit := total_take_fitting (to_pairs p) out.size
  refine ⟨_, hr, by rw [hr]; simp, hfit, ?_⟩
  simp only [List.length_append, expand_length, List.length_drop]
  omega

theorem decoder_in_bounds_witness :
    ∃ r, rle_decompress (.of_bytes [7, 2, 8, 9, 1]) ⟨5, zeroed 5⟩ = .ok r ∧
      rle_decompress (.of_bytes [7, 2, 8, 9, 1]) ⟨5, zeroed 5⟩ ≠ .error .out_of_bounds ∧
      r.written ≤ (⟨5, zeroed 5⟩ : SizedBuffer).size ∧
      r.buffer.length = (⟨5, zeroed 5⟩ : SizedBuffer).buffer.length :=
  decoder_in_bounds [7, 2, 8, 9, 1] ⟨5, zeroed 5⟩ (by decide) (by decide) (by simp [zeroed])
    (by decide)

theorem run_chunks_zero (b : Byte) : run_chunks b 0 = [] := by
  simp [run_chunks]

theorem enc_run_prefix (b : Byte) (T : List Byte) (hT : T.head? ≠ some b) :
    ∀ (m : Nat) (count : Byte), 0 < count.val →
      enc_run (List.replicate m b ++ T) b count
        = run_chunks b (count.val + m) ++ enc_pairs T := by
  intro m
  induction m with
  | zero =>
    intro count hc
    have h1 := enc_run_replicate b 0 count hc
    simp only [List.replicate_zero, enc_run] at h1
    simp only [List.replicate_zero, List.nil_append, ← h1]
    cases T with
    | nil => simp [enc_run, enc_pairs]
    | cons x T =>
      have hx : b ≠ x := by
        intro h
        apply hT
        simp [h]
      rw [enc_run, if_neg (fun h => hx h.1), enc_pairs]
      rfl
  | succ m ih =>
    intro count hc
    rw [List.replicate_succ, List.cons_append, enc_run]
    by_cases h255 : count < 255
    · rw [if_pos ⟨rfl, h255⟩, ih (count + 1) (by rw [val_succ h255]; omega), val_succ h255]
      congr 2
      omega
    · rw [if_neg (fun h => h255 h.2)]
      have hv : count.val = 255 := by
        have : ¬ count.val < 255 := h255
        have := count.isLt
        omega
      have hc255 : count = 255 := Fin.ext hv
      subst hc255
      rw [ih 1 (by decide)]
      have h1 : ((255 : Byte).val + (m + 1)) / 255 = ((1 : Byte).val + m) / 255 + 1 := by
        simp; omega
      have h2 : ((255 : Byte).val + (m + 1)) % 255 = ((1 : Byte).val + m) % 255 := by
        simp; omega
      simp only [run_chunks, h1, h2, List.replicate_succ, List.cons_append]

/-- The pairs of an input that starts with `m` copies of `v` and goes on with
another byte: the chunks of that run, then the pairs of the rest. -/
theorem enc_pairs_prefix (v : Byte) (T : List Byte) (hT : T.head? ≠ some v) (m : Nat) :
    enc_pairs (List.replicate m v ++ T) = run_chunks v m ++ enc_pairs T := by
  cases m with
  | zero => simp [run_chunks_zero]
  | succ m =>
    rw [List.replicate_succ, List.cons_append, enc_pairs, enc_run_prefix v T hT m 1 (by decide)]
    congr 2
    simp; omega

theorem leading_run (v : Byte) (S : List Byte) :
    ∃ m T, S = List.replicate m v ++ T ∧ T.head? ≠ some v := by
  induction S with
  | nil => exact ⟨0, [], rfl, by simp⟩
  | cons a S ih =>
    by_cases h : a = v
    · obtain ⟨m, T, hS, hT⟩ := ih
      exact ⟨m + 1, T, by rw [h, hS, List.replicate_succ, List.cons_append], hT⟩
    · exact ⟨0, a :: S, rfl, by simpa using h⟩

/-- Putting at most 255 copies of one byte in front of an input costs the
encoder at most one more pair. -/
theorem enc_pairs_length_prepend (v : Byte) (n : Nat) (hn : n ≤ 255) (S : List Byte) :
    (enc_pairs (List.replicate n v ++ S)).length ≤ (enc_pairs S).length + 1 := by
  obtain ⟨m, T, hS, hT⟩ := leading_run v S
  have h1 : List.replicate n v ++ S = List.replicate (n + m) v ++ T := by
    rw [hS, ← List.append_assoc, List.append_replicate_replicate]
  rw [h1, enc_pairs_prefix v T hT, hS, enc_pairs_prefix v T hT]
  simp only [List.length_append, run_chunks_length]
  omega

/-- No sequence of pairs that expands to `S` is shorter than the encoder's. -/
theorem enc_pairs_shortest (qs : List (Byte × Byte)) :
    (enc_pairs (expand qs)).length ≤ qs.length := by
  induction qs with
  | nil => simp [enc_pairs]
  | cons q qs ih =>
    have hq : q.2.val ≤ 255 := by have := q.2.isLt; omega
    have := enc_pairs_length_prepend q.1 q.2.val hq (expand qs)
    rw [expand_cons, List.length_cons]
    omega

/-- C20.  For every byte sequence `S`, `rle_compress` on `S` with sufficient
capacity (a buffer of at least `2 * |S|` bytes, below `2 ^ 63`) returns without
the capacity branch, and no sequence of (value, count) pairs with every count
in 1..255 whose expansion equals `S` has fewer pairs than it wrote. -/
theorem greedy_is_shortest (S : List Byte) (out : SizedBuffer)
    (hwf : out.size = out.buffer.length) (hcap : out.size < I64)
    (hroom : 2 * S.length ≤ out.size) :
    ∃ r, rle_compress (.of_bytes S) out = .ok r ∧ r.exceeded = false ∧
      expand (to_pairs r.bytes) = S ∧
      ∀ qs : List (Byte × Byte), (∀ q ∈ qs, 1 ≤ q.2.val ∧ q.2.val ≤ 255) →
        expand qs = S → (to_pairs r.bytes).length ≤ qs.length := by
  have hn : S.length < U64 := by unfold U64 I64 at *; omega
  have hlen := enc_pairs_length S
  have hb := bytes_append (flat (enc_pairs S)) (out.buffer.drop (2 * (enc_pairs S).length))
    (2 * (enc_pairs S).length) false (by simp)
  refine ⟨_, rle_compress_fits S out hn hwf hcap (by omega), rfl, ?_, ?_⟩
  · rw [hb, to_pairs_flat, expand_enc_pairs]
  · intro qs _ hqs
    rw [hb, to_pairs_flat, ← hqs]
    exact enc_pairs_shortest qs

theorem greedy_is_shortest_witness :
    ∃ r, rle_compress (.of_bytes [2, 2, 2, 6]) ⟨8, zeroed 8⟩ = .ok r ∧ r.exceeded = false ∧
      expand (to_pairs r.bytes) = [2, 2, 2, 6] ∧
      ∀ qs : List (Byte × Byte), (∀ q ∈ qs, 1 ≤ q.2.val ∧ q.2.val ≤ 255) →
        expand qs = [2, 2, 2, 6] → (to_pairs r.bytes).length ≤ qs.length :=
  greedy_is_shortest [2, 2, 2, 6] ⟨8, zeroed 8⟩ (by simp [zeroed]) (by decide) (by decide)

theorem compress_on_writable (writable : Path → Bool) (order : ByteOrder)
    (malloc : Nat → List Byte) (files : Files) (inp outp : Path) (h : writable outp = true) :
    compress_on writable order malloc files inp outp = compress order malloc files inp outp := by
  simp only [compress_on, compress, h, if_true]

theorem decompress_on_writable (writable : Path → Bool) (order : ByteOrder)
    (malloc : Nat → List Byte) (files : Files) (inp outp : Path) (h : writable outp = true) :
    decompress_on writable order malloc files inp outp
      = decompress order malloc files inp outp := by
  simp only [decompress_on, decompress_finish, decompress, h, if_true]

theorem compress_on_unwritable (writable : Path → Bool) (order : ByteOrder)
    (malloc : Nat → List Byte) (files : Files) (inp outp : Path) (S : List Byte)
    (hm : ∀ n, (malloc n).length = n) (hin : files inp = some S) (hS : S ≠ [])
    (hn : S.length < U64) (hub : (8 + 2 * S.length) % U64 ≠ I64)
    (h : writable outp = false) :
    compress_on writable order malloc files inp outp = .error .null_stream := by
  have hpos : S.length ≠ 0 := fun h => hS (List.length_eq_zero.mp h)
  obtain ⟨k, -, -, hr⟩ := rle_compress_returns S
    ⟨(8 + 2 * S.length) % U64, malloc ((8 + 2 * S.length) % U64)⟩ hn (by simp [hm])
    (Nat.mod_lt _ (by decide)) hub
  simp only [compress_on, read_entire_file, hin, hpos, if_false]
  rw [show (⟨S.length, S⟩ : FileContent) = FileContent.of_bytes S from rfl, hr]
  simp [h]

theorem compress_then_decompress_on_writable (writable : Path → Bool) (order : ByteOrder)
    (malloc : Nat → List Byte) (files : Files) (inp mid outp : Path)
    (hmid : writable mid = true) (hout : writable outp = true) :
    compress_then_decompress_on writable order malloc files inp mid outp
      = compress_then_decompress order malloc files inp mid outp := by
  unfold compress_then_decompress_on compress_then_decompress
  rw [compress_on_writable writable order malloc files inp mid hmid]
  cases compress order malloc files inp mid with
  | error e => rfl
  | ok o =>
    simp only
    rw [decompress_on_writable writable order malloc o.files mid outp hout]

/-- C2, amended.  For every input file whose content has 1, 255, 256 or 100000
bytes, and intermediate and output paths that can be opened for writing,
`compress in mid` followed by `decompress mid out` succeeds, prints no
diagnostic, and leaves an output file whose content equals the input content. -/
theorem container_round_trip_sizes (writable : Path → Bool) (order : ByteOrder)
    (malloc : Nat → List Byte) (files : Files) (inp mid outp : Path) (S : List Byte)
    (hm : ∀ n, (malloc n).length = n) (hin : files inp = some S)
    (hmid : writable mid = true) (hout : writable outp = true)
    (hsize : S.length = 1 ∨ S.length = 255 ∨ S.length = 256 ∨ S.length = 100000) :
    ∃ o, compress_then_decompress_on writable order malloc files inp mid outp = .ok o ∧
      o.files outp = some S ∧ o.diagnostics = [] := by
  have hS : S ≠ [] := by
    intro h
    rw [h] at hsize
    simp at hsize
  have hsz : 8 + 2 * S.length < I64 := by unfold I64; omega
  rw [compress_then_decompress_on_writable writable order malloc files inp mid outp hmid hout]
  refine ⟨_, container_round_trip order malloc files inp mid outp S hm hin hS hsz, ?_, rfl⟩
  simp [write_file]

theorem container_round_trip_sizes_witness :
    ∃ o, compress_then_decompress_on (fun _ => true) .little zeroed
        (fun q => if q = "in" then some [7] else none) "in" "mid" "out" = .ok o ∧
      o.files "out" = some [7] ∧ o.diagnostics = [] :=
  container_round_trip_sizes (fun _ => true) .little zeroed
    (fun q => if q = "in" then some [7] else none)
    "in" "mid" "out" [7] (fun n => by simp [zeroed]) (by simp) rfl rfl (Or.inl rfl)

/-- The run of `decompress` on a container that declares 5 bytes and holds the
single pair `(7, 2)`: the two bytes are written and the size mismatch is
reported. -/
theorem decompress_mismatch_example :
    (decompress_on (fun _ => true) .big zeroed
        (fun q => if q = "c" then some [0, 0, 0, 0, 0, 0, 0, 5, 7, 2] else none)
        "c" "out").map (fun o => (o.files "out", o.diagnostics))
      = .ok (some [7, 7], [.size_mismatch]) := rfl

/-- C2 as stated fails for an input file of size 0, even when every path can be
opened for writing: `compress` returns before writing the intermediate file, so
`decompress` finds nothing to read and no output file exists afterwards.  It
also fails, for a 1-byte input, when the output path cannot be opened for
writing: `fopen` returns the null pointer and nothing is written. -/
theorem container_round_trip_counterexample :
    (compress_then_decompress_on (fun _ => true) .little zeroed
        (fun q => if q = "in" then some [] else none)
        "in" "mid" "out").map (fun o => (o.files "mid", o.files "out"))
      = .ok (none, none) ∧
    (compress_then_decompress_on (fun q => decide (q ≠ "out")) .little zeroed
        (fun q => if q = "in" then some [7] else none)
        "in" "mid" "out").map (fun o => o.files "out")
      = .error .null_stream :=
  ⟨rfl, rfl⟩

/-- C3.  For every non-empty raw content `S` with `8 + 2 * |S|` below `2 ^ 63`
(the size of an allocation, which `compress` makes at line 71), the container
`compress` writes, the path being one that can be opened, has a header whose
value is `|S|` and a payload that `rle_decompress`, given output capacity
`|S|`, expands to exactly `S` with written length `|S|` and without the
capacity diagnostic; `decompress` on that container writes `S` to any output
path that can be opened and prints neither the capacity nor the size-mismatch
diagnostic. -/
theorem header_payload_agreement (writable : Path → Bool) (order : ByteOrder)
    (malloc : Nat → List Byte) (files : Files)
    (inp mid : Path) (S : List Byte) (hm : ∀ n, (malloc n).length = n)
    (hin : files inp = some S) (hS : S ≠ []) (hsz : 8 + 2 * S.length < I64)
    (hmid : writable mid = true) :
    ∃ payload,
      compress_on writable order malloc files inp mid =
        .ok ⟨write_file files mid (u64_bytes order S.length ++ payload), []⟩ ∧
      u64_value order (u64_bytes order S.length ++ payload) = S.length ∧
      rle_decompress (.of_bytes payload) ⟨S.length, malloc S.length⟩
        = .ok ⟨S.length, S, false⟩ ∧
      ∀ (files1 : Files) (dst : Path), writable dst = true →
        files1 mid = some (u64_bytes order S.length ++ payload) →
        decompress_on writable order malloc files1 mid dst = .ok ⟨write_file files1 dst S, []⟩ := by
  have hn : S.length < U64 := by unfold U64 I64 at *; omega
  refine ⟨flat (enc_pairs S), ?_, u64_value_bytes order S.length hn _, ?_, ?_⟩
  · rw [compress_on_writable writable order malloc files inp mid hmid]
    exact compress_spec order malloc files inp mid S hm hin hS hsz
  · obtain ⟨r, h1, -, -, -, h5, h6⟩ := roundtrip_nonempty S
      ⟨8 + 2 * S.length, malloc (8 + 2 * S.length)⟩ ⟨S.length, malloc S.length⟩ hS
      (by simp [hm]) hsz (by simp) (by simp [hm]) rfl
    rw [← h5]
    exact h6
  · intro files1 dst hdst hfile
    rw [decompress_on_writable writable order malloc files1 mid dst hdst]
    exact decompress_spec order malloc files1 mid dst S hm hfile hS hsz

theorem header_payload_agreement_witness :
    ∃ payload,
      compress_on (fun _ => true) .big zeroed
          (fun q => if q = "in" then some [7, 7, 9] else none) "in" "mid" =
        .ok ⟨write_file (fun q => if q = "in" then some [7, 7, 9] else none) "mid"
          (u64_bytes .big ([7, 7, 9] : List Byte).length ++ payload), []⟩ ∧
      u64_value .big (u64_bytes .big ([7, 7, 9] : List Byte).length ++ payload)
        = ([7, 7, 9] : List Byte).length ∧
      rle_decompress (.of_bytes payload)
          ⟨([7, 7, 9] : List Byte).length, zeroed ([7, 7, 9] : List Byte).length⟩
        = .ok ⟨([7, 7, 9] : List Byte).length, [7, 7, 9], false⟩ ∧
      ∀ (files1 : Files) (dst : Path), (fun _ => true) dst = true →
        files1 "mid" = some (u64_bytes .big ([7, 7, 9] : List Byte).length ++ payload) →
        decompress_on (fun _ => true) .big zeroed files1 "mid" dst
          = .ok ⟨write_file files1 dst [7, 7, 9], []⟩ :=
  header_payload_agreement (fun _ => true) .big zeroed
    (fun q => if q = "in" then some [7, 7, 9] else none)
    "in" "mid" [7, 7, 9] (fun n => by simp [zeroed]) (by simp) (by simp) (by decide) rfl

end Rle
